import Mathlib

/-!
# Tracked numbers (tnum)

A shallow embedding of `src/src/tnum.c` and `src/include/tnum.h`.

A `u64` is modelled as a natural number below `2 ^ 64`; every C operation that
can wrap is reduced modulo `2 ^ 64` explicitly.
-/

namespace Tnum

/-! ## Machine arithmetic on `u64` -/

/-- Wrap-around addition of two `u64` (C `+`). -/
def add_u64 (x y : Nat) : Nat := (x + y) % 2 ^ 64

/-- Wrap-around subtraction of two `u64` (C `-`). -/
def sub_u64 (x y : Nat) : Nat := (x + 2 ^ 64 - y) % 2 ^ 64

/-- Wrap-around multiplication of two `u64` (C `*`). -/
def mul_u64 (x y : Nat) : Nat := (x * y) % 2 ^ 64

/-- Bitwise complement of a `u64` (C `~`). -/
def not_u64 (x : Nat) : Nat := x ^^^ (2 ^ 64 - 1)

/-- Left shift of a `u64` (C `<<`); the bits shifted out are lost. -/
def shl_u64 (x s : Nat) : Nat := (x <<< s) % 2 ^ 64

/-- Logical right shift of a `u64` (C `>>`). -/
def shr_u64 (x s : Nat) : Nat := x >>> s

/-! ## The data model -/

/-- The C `struct tnum { u64 value; u64 mask; }`. -/
structure tnum where
  value : Nat
  mask : Nat
  deriving DecidableEq

/-- Both fields of the struct fit in a `u64`. -/
def is_u64 (a : tnum) : Prop := a.value < 2 ^ 64 ∧ a.mask < 2 ^ 64

instance (a : tnum) : Decidable (is_u64 a) :=
  inferInstanceAs (Decidable (a.value < 2 ^ 64 ∧ a.mask < 2 ^ 64))

/-- Well-formedness: no bit is both unknown and fixed to one
(`value & mask == 0`). -/
def wf (a : tnum) : Prop := a.value &&& a.mask = 0

instance (a : tnum) : Decidable (wf a) :=
  inferInstanceAs (Decidable (a.value &&& a.mask = 0))

/-- Membership of a concrete value in the set of a tnum:
`x & ~a.mask == a.value`. -/
def member (x : Nat) (a : tnum) : Prop := x &&& not_u64 a.mask = a.value

instance (x : Nat) (a : tnum) : Decidable (member x a) :=
  inferInstanceAs (Decidable (x &&& not_u64 a.mask = a.value))

/-! ## The operations of `tnum.c` and `tnum.h` -/

/-- The C macro `TNUM(_v, _m)`. -/
def TNUM (v m : Nat) : tnum := ⟨v, m⟩

/-- The inline function `tnum_const` of `tnum.h`. -/
def tnum_const (value : Nat) : tnum := TNUM value 0

/-- A completely unknown value: `{ .value = 0, .mask = -1 }`. -/
def tnum_unknown : tnum := ⟨0, 2 ^ 64 - 1⟩

/-- The C function `tnum_lshift`. -/
def tnum_lshift (a : tnum) (shift : Nat) : tnum :=
  TNUM (shl_u64 a.value shift) (shl_u64 a.mask shift)

/-- The C function `tnum_rshift`. -/
def tnum_rshift (a : tnum) (shift : Nat) : tnum :=
  TNUM (shr_u64 a.value shift) (shr_u64 a.mask shift)

/-- The C function `tnum_add`. -/
def tnum_add (a b : tnum) : tnum :=
  let sm := add_u64 a.mask b.mask
  let sv := add_u64 a.value b.value
  let sigma := add_u64 sm sv
  let chi := sigma ^^^ sv
  let mu := chi ||| a.mask ||| b.mask
  TNUM (sv &&& not_u64 mu) mu

/-- The C function `tnum_sub`. -/
def tnum_sub (a b : tnum) : tnum :=
  let dv := sub_u64 a.value b.value
  let alpha := add_u64 dv a.mask
  let beta := sub_u64 dv b.mask
  let chi := alpha ^^^ beta
  let mu := chi ||| a.mask ||| b.mask
  TNUM (dv &&& not_u64 mu) mu

/-- The C function `tnum_and`. -/
def tnum_and (a b : tnum) : tnum :=
  let alpha := a.value ||| a.mask
  let beta := b.value ||| b.mask
  let v := a.value &&& b.value
  TNUM v (alpha &&& beta &&& not_u64 v)

/-- One pass through the body of the `while` loop of `tnum_mul`: the new
value of `acc_m`. -/
def tnum_mul_step (a b acc_m : tnum) : tnum :=
  if a.value &&& 1 ≠ 0 then
    tnum_add acc_m (TNUM 0 b.mask)
  else if a.mask &&& 1 ≠ 0 then
    tnum_add acc_m (TNUM 0 (b.value ||| b.mask))
  else
    acc_m

/-- The `while (a.value || a.mask)` loop of `tnum_mul`, returning the final
`acc_m`. Each pass shifts `a` right by one, so `a.value + a.mask` decreases. -/
def tnum_mul_loop (a b acc_m : tnum) : tnum :=
  if _h : a.value ≠ 0 ∨ a.mask ≠ 0 then
    tnum_mul_loop (tnum_rshift a 1) (tnum_lshift b 1) (tnum_mul_step a b acc_m)
  else
    acc_m
termination_by a.value + a.mask
decreasing_by
  simp only [tnum_rshift, TNUM, shr_u64, Nat.shiftRight_eq_div_pow]
  omega

/-- The C function `tnum_mul`. -/
def tnum_mul (a b : tnum) : tnum :=
  let acc_v := mul_u64 a.value b.value
  let acc_m := tnum_mul_loop a b (TNUM 0 0)
  tnum_add (TNUM acc_v 0) acc_m

/-! ## Auxiliary notions used in the proofs -/

/-- Every set bit of `p` is a set bit of `m`: `p & m == p`. -/
def submask (p m : Nat) : Prop := p &&& m = p

instance (p m : Nat) : Decidable (submask p m) :=
  inferInstanceAs (Decidable (p &&& m = p))

/-- The part of the product `x * y - a.value * b.value` contributed by the
least significant bit of the multiplier: `av` is `a.value`, `p` the unknown
bits of `x`, `bv` is `b.value` and `q` the unknown bits of `y`. -/
def lsb_product (av p bv q : Nat) : Nat := (av % 2) * q + (p % 2) * (bv + q)

/-! ## The loop of `tnum_mul` with a pass counter -/

/-- The `while (a.value || a.mask)` loop of `tnum_mul` again, with the same
guard and the same body, returning next to the final `acc_m` the number of
passes made, counted up from `n`. -/
def tnum_mul_loop_counted (a b acc_m : tnum) (n : Nat) : tnum × Nat :=
  if _h : a.value ≠ 0 ∨ a.mask ≠ 0 then
    tnum_mul_loop_counted (tnum_rshift a 1) (tnum_lshift b 1) (tnum_mul_step a b acc_m) (n + 1)
  else
    (acc_m, n)
termination_by a.value + a.mask
decreasing_by
  simp only [tnum_rshift, TNUM, shr_u64, Nat.shiftRight_eq_div_pow]
  omega

/-! ## Operations declared in `tnum.h` without a definition -/

/-- Modelled from the spec: `tnum_range` is declared in `tnum.h` and no
definition of it is among the sources. The spec: take the XOR of `min` and
`max`, let `b` be its most significant set bit, set the mask to all bits from
`0` through `b` and the value to `min` with those bits cleared; if
`min == max` the result is `const(min)`. The most significant set bit of a
nonzero number is its `Nat.log2`. -/
def tnum_range (min max : Nat) : tnum :=
  if min = max then
    tnum_const min
  else
    let b := Nat.log2 (min ^^^ max)
    let delta := 2 ^ (b + 1) - 1
    TNUM (min &&& not_u64 delta) delta

/-- Modelled from the spec: `tnum_in` is declared in `tnum.h` and no definition
of it is among the sources. The spec: `in(needle, haystack)` holds iff
`(needle.value & ~haystack.mask) == (haystack.value & ~haystack.mask)` and
`needle.mask & ~haystack.mask == 0`. -/
def tnum_in (needle haystack : tnum) : Bool :=
  ((needle.value &&& not_u64 haystack.mask) == (haystack.value &&& not_u64 haystack.mask))
    && ((needle.mask &&& not_u64 haystack.mask) == 0)

/-! ## Bit-level arithmetic -/
theorem testBit_add_carry (x y i : Nat) :
    (x + y).testBit i
      = ((x.testBit i ^^ y.testBit i) ^^ decide (2 ^ i ≤ x % 2 ^ i + y % 2 ^ i)) := by
  simp only [Nat.testBit_to_div_mod]
  rw [Nat.add_div (Nat.two_pow_pos i)]
  generalize x / 2 ^ i = p
  generalize y / 2 ^ i = q
  rcases Nat.mod_two_eq_zero_or_one p with hp | hp <;>
  rcases Nat.mod_two_eq_zero_or_one q with hq | hq <;>
  by_cases hc : 2 ^ i ≤ x % 2 ^ i + y % 2 ^ i <;>
  simp [hc, hp, hq, Nat.add_mod]

theorem disjoint_mod_add_lt (x y : Nat)
    (h : ∀ j, ¬ (x.testBit j = true ∧ y.testBit j = true)) (i : Nat) :
    x % 2 ^ i + y % 2 ^ i < 2 ^ i := by
  induction i with
  | zero => simp [Nat.mod_one]
  | succ i ih =>
    rw [Nat.mod_pow_succ, Nat.mod_pow_succ]
    have hi := h i
    simp only [Nat.testBit_to_div_mod, decide_eq_true_eq] at hi
    have h2 : 2 ^ (i + 1) = 2 * 2 ^ i := by rw [Nat.pow_succ]; ring
    rcases Nat.mod_two_eq_zero_or_one (x / 2 ^ i) with hp | hp <;>
    rcases Nat.mod_two_eq_zero_or_one (y / 2 ^ i) with hq | hq
    · rw [hp, hq]; omega
    · rw [hp, hq]; omega
    · rw [hp, hq]; omega
    · exact absurd ⟨hp, hq⟩ hi

theorem add_eq_or_of_disjoint (x y : Nat)
    (h : ∀ j, ¬ (x.testBit j = true ∧ y.testBit j = true)) : x + y = x ||| y := by
  apply Nat.eq_of_testBit_eq
  intro i
  have hc := disjoint_mod_add_lt x y h i
  have hi := h i
  rw [testBit_add_carry, Nat.testBit_or]
  have : decide (2 ^ i ≤ x % 2 ^ i + y % 2 ^ i) = false := by simp; omega
  rw [this]
  revert hi
  cases x.testBit i <;> cases y.testBit i <;> simp

theorem testBit_sub_borrow (x y i : Nat) (hx : x < 2 ^ 64) (hy : y < 2 ^ 64) (hi : i < 64) :
    ((x + 2 ^ 64 - y) % 2 ^ 64).testBit i
      = ((x.testBit i ^^ y.testBit i) ^^ decide (x % 2 ^ i < y % 2 ^ i)) := by
  -- d + y ≡ x
  set d := (x + 2 ^ 64 - y) % 2 ^ 64 with hd
  have hdy : (d + y) % 2 ^ 64 = x := by
    rw [hd, Nat.mod_add_mod]
    have : x + 2 ^ 64 - y + y = x + 2 ^ 64 := by omega
    rw [this, Nat.add_mod_right, Nat.mod_eq_of_lt hx]
  have hb : x.testBit i = (d + y).testBit i := by
    conv_lhs => rw [← hdy]
    rw [Nat.testBit_mod_two_pow]
    simp [hi]
  rw [hb, testBit_add_carry]
  have hm : (d % 2 ^ i + y % 2 ^ i) % 2 ^ i = x % 2 ^ i := by
    rw [← Nat.add_mod, ← hdy]
    exact (Nat.mod_mod_of_dvd _ (Nat.pow_dvd_pow 2 (by omega))).symm
  have hlt1 : d % 2 ^ i < 2 ^ i := Nat.mod_lt _ (Nat.two_pow_pos i)
  have hlt2 : y % 2 ^ i < 2 ^ i := Nat.mod_lt _ (Nat.two_pow_pos i)
  have hlt3 : x % 2 ^ i < 2 ^ i := Nat.mod_lt _ (Nat.two_pow_pos i)
  have hdec : decide (2 ^ i ≤ d % 2 ^ i + y % 2 ^ i) = decide (x % 2 ^ i < y % 2 ^ i) := by
    by_cases hc : 2 ^ i ≤ d % 2 ^ i + y % 2 ^ i
    · have : (d % 2 ^ i + y % 2 ^ i) % 2 ^ i = d % 2 ^ i + y % 2 ^ i - 2 ^ i := by
        rw [Nat.mod_eq_sub_mod hc, Nat.mod_eq_of_lt (by omega)]
      simp only [hc, decide_True, true_eq_decide_iff]
      omega
    · have : (d % 2 ^ i + y % 2 ^ i) % 2 ^ i = d % 2 ^ i + y % 2 ^ i :=
        Nat.mod_eq_of_lt (by omega)
      simp only [hc, decide_False, false_eq_decide_iff]
      omega
  rw [hdec]
  cases d.testBit i <;> cases y.testBit i <;> cases decide (x % 2 ^ i < y % 2 ^ i) <;> rfl

theorem mod_le_mod_of_testBit {p q : Nat}
    (h : ∀ j, p.testBit j = true → q.testBit j = true) (i : Nat) :
    p % 2 ^ i ≤ q % 2 ^ i := by
  apply Nat.le_of_testBit
  intro j
  simp only [Nat.testBit_mod_two_pow, Bool.and_eq_true, decide_eq_true_eq]
  exact fun ⟨h1, h2⟩ => ⟨h1, h j h2⟩

/-! ## Membership, bit by bit -/

theorem member_iff_bits {x : Nat} {a : tnum} (hx : x < 2 ^ 64) (hv : a.value < 2 ^ 64) :
    member x a ↔ ∀ j, a.value.testBit j = (x.testBit j && !a.mask.testBit j) := by
  unfold member not_u64
  constructor
  · intro h j
    have hj := congrArg (fun n => n.testBit j) h
    simp only [Nat.testBit_and, Nat.testBit_xor, Nat.testBit_two_pow_sub_one] at hj
    by_cases hlt : j < 64
    · rw [← hj]; simp [hlt]
    · have h1 : x.testBit j = false :=
        Nat.testBit_lt_two_pow (lt_of_lt_of_le hx (Nat.pow_le_pow_right (by decide) (by omega)))
      have h2 : a.value.testBit j = false :=
        Nat.testBit_lt_two_pow (lt_of_lt_of_le hv (Nat.pow_le_pow_right (by decide) (by omega)))
      rw [h1, h2]; rfl
  · intro h
    apply Nat.eq_of_testBit_eq
    intro j
    simp only [Nat.testBit_and, Nat.testBit_xor, Nat.testBit_two_pow_sub_one]
    by_cases hlt : j < 64
    · rw [h j]; simp [hlt]
    · have h1 : x.testBit j = false :=
        Nat.testBit_lt_two_pow (lt_of_lt_of_le hx (Nat.pow_le_pow_right (by decide) (by omega)))
      have h2 : a.value.testBit j = false :=
        Nat.testBit_lt_two_pow (lt_of_lt_of_le hv (Nat.pow_le_pow_right (by decide) (by omega)))
      rw [h1, h2]; rfl

/-- Where neither mask has bit `i` and the extreme sums agree at bit `i`, every
concrete sum has the bit of `av + bv` there. -/
theorem add_known_bit {av am bv bm x y i : Nat}
    (hx : ∀ j, av.testBit j = (x.testBit j && !am.testBit j))
    (hy : ∀ j, bv.testBit j = (y.testBit j && !bm.testBit j))
    (ham : am.testBit i = false) (hbm : bm.testBit i = false)
    (hchi : ((av ||| am) + (bv ||| bm)).testBit i = (av + bv).testBit i) :
    (x + y).testBit i = (av + bv).testBit i := by
  have hxi := hx i
  have hyi := hy i
  rw [ham] at hxi
  rw [hbm] at hyi
  simp only [Bool.not_false, Bool.and_true] at hxi hyi
  have l1 : av % 2 ^ i ≤ x % 2 ^ i :=
    mod_le_mod_of_testBit (fun j hj => by have := hx j; rw [hj] at this; simp at this; exact this.1) i
  have l2 : bv % 2 ^ i ≤ y % 2 ^ i :=
    mod_le_mod_of_testBit (fun j hj => by have := hy j; rw [hj] at this; simp at this; exact this.1) i
  have u1 : x % 2 ^ i ≤ (av ||| am) % 2 ^ i :=
    mod_le_mod_of_testBit (fun j hj => by
      have := hx j; rw [hj] at this; rw [Nat.testBit_or, this]
      cases am.testBit j <;> rfl) i
  have u2 : y % 2 ^ i ≤ (bv ||| bm) % 2 ^ i :=
    mod_le_mod_of_testBit (fun j hj => by
      have := hy j; rw [hj] at this; rw [Nat.testBit_or, this]
      cases bm.testBit j <;> rfl) i
  rw [testBit_add_carry, testBit_add_carry, Nat.testBit_or, Nat.testBit_or, ham, hbm] at hchi
  rw [testBit_add_carry, testBit_add_carry, hxi, hyi]
  simp only [Bool.or_false] at hchi
  congr 1
  by_cases c1 : 2 ^ i ≤ av % 2 ^ i + bv % 2 ^ i
  · have c2 : 2 ^ i ≤ x % 2 ^ i + y % 2 ^ i := by omega
    simp [c1, c2]
  · by_cases c3 : 2 ^ i ≤ (av ||| am) % 2 ^ i + (bv ||| bm) % 2 ^ i
    · exfalso
      simp only [c1, c3, decide_True, decide_False] at hchi
      revert hchi
      cases x.testBit i <;> cases y.testBit i <;> simp
    · have c2 : ¬ 2 ^ i ≤ x % 2 ^ i + y % 2 ^ i := by omega
      simp [c1, c2]

theorem testBit_of_ge_64 {x j : Nat} (hx : x < 2 ^ 64) (hj : 64 ≤ j) : x.testBit j = false :=
  Nat.testBit_lt_two_pow (lt_of_lt_of_le hx (Nat.pow_le_pow_right (by decide) hj))

theorem add_u64_lt (x y : Nat) : add_u64 x y < 2 ^ 64 :=
  Nat.mod_lt _ (Nat.two_pow_pos 64)

theorem sub_u64_lt (x y : Nat) : sub_u64 x y < 2 ^ 64 :=
  Nat.mod_lt _ (Nat.two_pow_pos 64)

theorem mul_u64_lt (x y : Nat) : mul_u64 x y < 2 ^ 64 :=
  Nat.mod_lt _ (Nat.two_pow_pos 64)

theorem testBit_add_u64 (x y : Nat) {j : Nat} (hj : j < 64) :
    (add_u64 x y).testBit j = (x + y).testBit j := by
  unfold add_u64
  rw [Nat.testBit_mod_two_pow]
  simp [hj]

theorem testBit_not_u64 (x j : Nat) :
    (not_u64 x).testBit j = (x.testBit j ^^ decide (j < 64)) := by
  unfold not_u64
  rw [Nat.testBit_xor, Nat.testBit_two_pow_sub_one]

theorem wf_bits {a : tnum} (h : wf a) (j : Nat) :
    ¬ (a.value.testBit j = true ∧ a.mask.testBit j = true) := by
  have hj := congrArg (fun n => n.testBit j) h
  simp only [Nat.testBit_and, Nat.zero_testBit] at hj
  intro ⟨h1, h2⟩
  rw [h1, h2] at hj
  exact Bool.noConfusion hj

/-- The largest member of a well-formed tnum, `value | mask`, is `value + mask`. -/
theorem value_add_mask {a : tnum} (h : wf a) : a.value + a.mask = a.value ||| a.mask :=
  add_eq_or_of_disjoint _ _ (wf_bits h)

/-- In `tnum_add`, `sigma` is the wrapped sum of the largest members. -/
theorem sigma_eq {a b : tnum} (wa : wf a) (wb : wf b) :
    add_u64 (add_u64 a.mask b.mask) (add_u64 a.value b.value)
      = add_u64 (a.value ||| a.mask) (b.value ||| b.mask) := by
  rw [← value_add_mask wa, ← value_add_mask wb]
  unfold add_u64
  rw [← Nat.add_mod]
  congr 1
  omega

theorem tnum_add_value_lt (a b : tnum) : (tnum_add a b).value < 2 ^ 64 :=
  lt_of_le_of_lt Nat.and_le_left (add_u64_lt _ _)

/-- Bit `j` of the mask computed by `tnum_add`. -/
theorem tnum_add_mask_bit {a b : tnum} (wa : wf a) (wb : wf b) {j : Nat} (hj : j < 64) :
    (tnum_add a b).mask.testBit j
      = ((((a.value ||| a.mask) + (b.value ||| b.mask)).testBit j
            ^^ (a.value + b.value).testBit j)
          || a.mask.testBit j || b.mask.testBit j) := by
  simp only [tnum_add, TNUM, Nat.testBit_or, Nat.testBit_xor]
  rw [sigma_eq wa wb, testBit_add_u64 _ _ hj, testBit_add_u64 _ _ hj]

/-- Bit `j` of the value computed by `tnum_add`. -/
theorem tnum_add_value_bit (a b : tnum) {j : Nat} (hj : j < 64) :
    (tnum_add a b).value.testBit j
      = ((a.value + b.value).testBit j && !(tnum_add a b).mask.testBit j) := by
  simp only [tnum_add, TNUM, Nat.testBit_and, testBit_not_u64, hj, decide_True,
    Bool.xor_true, testBit_add_u64]

theorem sound_tnum_add (a b : tnum) (x y : Nat)
    (ha : is_u64 a) (hb : is_u64 b) (wa : wf a) (wb : wf b)
    (hx : x < 2 ^ 64) (hy : y < 2 ^ 64)
    (mx : member x a) (my : member y b) :
    member (add_u64 x y) (tnum_add a b) := by
  have bx := (member_iff_bits hx ha.1).1 mx
  have bY := (member_iff_bits hy hb.1).1 my
  rw [member_iff_bits (add_u64_lt x y) (tnum_add_value_lt a b)]
  intro j
  by_cases hj : j < 64
  · rw [tnum_add_value_bit a b hj, testBit_add_u64 x y hj]
    cases hm : (tnum_add a b).mask.testBit j
    · rw [tnum_add_mask_bit wa wb hj] at hm
      simp only [Bool.or_eq_false_iff, bne_eq_false_iff_eq] at hm
      obtain ⟨⟨h1, h2⟩, h3⟩ := hm
      rw [add_known_bit bx bY h2 h3 (by simpa using h1)]
    · simp
  · rw [testBit_of_ge_64 (tnum_add_value_lt a b) (by omega),
      testBit_of_ge_64 (add_u64_lt x y) (by omega)]
    rfl

/-! ### Soundness of `tnum_sub` -/

theorem testBit_sub_u64 {x y j : Nat} (hx : x < 2 ^ 64) (hy : y < 2 ^ 64) (hj : j < 64) :
    (sub_u64 x y).testBit j
      = ((x.testBit j ^^ y.testBit j) ^^ decide (x % 2 ^ j < y % 2 ^ j)) :=
  testBit_sub_borrow x y j hx hy hj

theorem or_mask_lt {a : tnum} (ha : is_u64 a) : a.value ||| a.mask < 2 ^ 64 :=
  Nat.or_lt_two_pow ha.1 ha.2

/-- In `tnum_sub`, `alpha` is the largest member of `a` minus the smallest of `b`. -/
theorem alpha_eq {a b : tnum} (hb : is_u64 b) (wa : wf a) :
    add_u64 (sub_u64 a.value b.value) a.mask = sub_u64 (a.value ||| a.mask) b.value := by
  rw [← value_add_mask wa]
  have h1 := hb.1
  unfold add_u64 sub_u64
  rw [Nat.mod_add_mod]
  congr 1
  omega

/-- In `tnum_sub`, `beta` is the smallest member of `a` minus the largest of `b`. -/
theorem beta_eq {a b : tnum} (hb : is_u64 b) (wb : wf b) :
    sub_u64 (sub_u64 a.value b.value) b.mask = sub_u64 a.value (b.value ||| b.mask) := by
  have h0 := or_mask_lt hb
  rw [← value_add_mask wb] at h0 ⊢
  have h1 := hb.1
  have h2 := hb.2
  unfold sub_u64
  have e1 : (a.value + 2 ^ 64 - b.value) % 2 ^ 64 + 2 ^ 64 - b.mask
      = (a.value + 2 ^ 64 - b.value) % 2 ^ 64 + (2 ^ 64 - b.mask) := by omega
  rw [e1, Nat.mod_add_mod]
  have e2 : a.value + 2 ^ 64 - b.value + (2 ^ 64 - b.mask)
      = (a.value + 2 ^ 64 - (b.value + b.mask)) + 2 ^ 64 := by omega
  rw [e2, Nat.add_mod_right]

/-- Where neither mask has bit `i` and the extreme differences agree at bit
`i`, every concrete difference has the bit of `av - bv` there. -/
theorem sub_known_bit {av am bv bm x y i : Nat}
    (hx : ∀ j, av.testBit j = (x.testBit j && !am.testBit j))
    (hy : ∀ j, bv.testBit j = (y.testBit j && !bm.testBit j))
    (hav : av < 2 ^ 64) (ham64 : am < 2 ^ 64) (hbv : bv < 2 ^ 64) (hbm64 : bm < 2 ^ 64)
    (hx64 : x < 2 ^ 64) (hy64 : y < 2 ^ 64) (hi : i < 64)
    (ham : am.testBit i = false) (hbm : bm.testBit i = false)
    (hchi : (sub_u64 (av ||| am) bv).testBit i = (sub_u64 av (bv ||| bm)).testBit i) :
    (sub_u64 x y).testBit i = (sub_u64 av bv).testBit i := by
  have hxi := hx i
  have hyi := hy i
  rw [ham] at hxi
  rw [hbm] at hyi
  simp only [Bool.not_false, Bool.and_true] at hxi hyi
  have l1 : av % 2 ^ i ≤ x % 2 ^ i :=
    mod_le_mod_of_testBit (fun j hj => by have := hx j; rw [hj] at this; simp at this; exact this.1) i
  have l2 : bv % 2 ^ i ≤ y % 2 ^ i :=
    mod_le_mod_of_testBit (fun j hj => by have := hy j; rw [hj] at this; simp at this; exact this.1) i
  have u1 : x % 2 ^ i ≤ (av ||| am) % 2 ^ i :=
    mod_le_mod_of_testBit (fun j hj => by
      have := hx j; rw [hj] at this; rw [Nat.testBit_or, this]
      cases am.testBit j <;> rfl) i
  have u2 : y % 2 ^ i ≤ (bv ||| bm) % 2 ^ i :=
    mod_le_mod_of_testBit (fun j hj => by
      have := hy j; rw [hj] at this; rw [Nat.testBit_or, this]
      cases bm.testBit j <;> rfl) i
  have hA : av ||| am < 2 ^ 64 := Nat.or_lt_two_pow hav ham64
  have hB : bv ||| bm < 2 ^ 64 := Nat.or_lt_two_pow hbv hbm64
  rw [testBit_sub_u64 hA hbv hi, testBit_sub_u64 hav hB hi, Nat.testBit_or, Nat.testBit_or,
    ham, hbm] at hchi
  rw [testBit_sub_u64 hx64 hy64 hi, testBit_sub_u64 hav hbv hi, hxi, hyi]
  simp only [Bool.or_false] at hchi
  congr 1
  by_cases c1 : (av ||| am) % 2 ^ i < bv % 2 ^ i
  · have c2 : x % 2 ^ i < y % 2 ^ i := by omega
    have c3 : av % 2 ^ i < bv % 2 ^ i := by omega
    simp [c2, c3]
  · by_cases c4 : av % 2 ^ i < (bv ||| bm) % 2 ^ i
    · exfalso
      simp only [c1, c4, decide_True, decide_False] at hchi
      revert hchi
      cases x.testBit i <;> cases y.testBit i <;> simp
    · have c2 : ¬ x % 2 ^ i < y % 2 ^ i := by omega
      have c3 : ¬ av % 2 ^ i < bv % 2 ^ i := by omega
      simp [c2, c3]

theorem tnum_sub_value_lt (a b : tnum) : (tnum_sub a b).value < 2 ^ 64 :=
  lt_of_le_of_lt Nat.and_le_left (sub_u64_lt _ _)

/-- Bit `j` of the mask computed by `tnum_sub`. -/
theorem tnum_sub_mask_bit {a b : tnum} (hb : is_u64 b) (wa : wf a) (wb : wf b)
    (j : Nat) :
    (tnum_sub a b).mask.testBit j
      = (((sub_u64 (a.value ||| a.mask) b.value).testBit j
            ^^ (sub_u64 a.value (b.value ||| b.mask)).testBit j)
          || a.mask.testBit j || b.mask.testBit j) := by
  simp only [tnum_sub, TNUM, Nat.testBit_or, Nat.testBit_xor]
  rw [alpha_eq hb wa, beta_eq hb wb]

/-- Bit `j` of the value computed by `tnum_sub`. -/
theorem tnum_sub_value_bit (a b : tnum) {j : Nat} (hj : j < 64) :
    (tnum_sub a b).value.testBit j
      = ((sub_u64 a.value b.value).testBit j && !(tnum_sub a b).mask.testBit j) := by
  simp only [tnum_sub, TNUM, Nat.testBit_and, testBit_not_u64, hj, decide_True,
    Bool.xor_true]

theorem sound_tnum_sub (a b : tnum) (x y : Nat)
    (ha : is_u64 a) (hb : is_u64 b) (wa : wf a) (wb : wf b)
    (hx : x < 2 ^ 64) (hy : y < 2 ^ 64)
    (mx : member x a) (my : member y b) :
    member (sub_u64 x y) (tnum_sub a b) := by
  have bx := (member_iff_bits hx ha.1).1 mx
  have bY := (member_iff_bits hy hb.1).1 my
  rw [member_iff_bits (sub_u64_lt x y) (tnum_sub_value_lt a b)]
  intro j
  by_cases hj : j < 64
  · rw [tnum_sub_value_bit a b hj]
    cases hm : (tnum_sub a b).mask.testBit j
    · rw [tnum_sub_mask_bit hb wa wb] at hm
      simp only [Bool.or_eq_false_iff, bne_eq_false_iff_eq] at hm
      obtain ⟨⟨h1, h2⟩, h3⟩ := hm
      rw [sub_known_bit bx bY ha.1 ha.2 hb.1 hb.2 hx hy hj h2 h3 (by simpa using h1)]
    · simp
  · rw [testBit_of_ge_64 (tnum_sub_value_lt a b) (by omega),
      testBit_of_ge_64 (sub_u64_lt x y) (by omega)]
    rfl

/-! ### Soundness of `tnum_and` -/

theorem tnum_and_value_lt {a : tnum} (b : tnum) (ha : is_u64 a) : (tnum_and a b).value < 2 ^ 64 :=
  lt_of_le_of_lt Nat.and_le_left ha.1

theorem sound_tnum_and (a b : tnum) (x y : Nat)
    (ha : is_u64 a) (hb : is_u64 b)
    (hx : x < 2 ^ 64) (hy : y < 2 ^ 64)
    (mx : member x a) (my : member y b) :
    member (x &&& y) (tnum_and a b) := by
  have bx := (member_iff_bits hx ha.1).1 mx
  have bY := (member_iff_bits hy hb.1).1 my
  rw [member_iff_bits (lt_of_le_of_lt Nat.and_le_left hx) (tnum_and_value_lt b ha)]
  intro j
  simp only [tnum_and, TNUM, Nat.testBit_and, Nat.testBit_or, testBit_not_u64, bx j, bY j]
  by_cases hj : j < 64
  · simp only [hj, decide_True]
    cases x.testBit j <;> cases y.testBit j <;> cases a.mask.testBit j <;>
      cases b.mask.testBit j <;> rfl
  · rw [testBit_of_ge_64 hx (by omega)]
    simp

/-! ### Well-formedness and range of the results -/

theorem and_not_u64_and_self {s mu : Nat} (hs : s < 2 ^ 64) : (s &&& not_u64 mu) &&& mu = 0 := by
  apply Nat.eq_of_testBit_eq
  intro j
  simp only [Nat.testBit_and, testBit_not_u64, Nat.zero_testBit]
  by_cases hj : j < 64
  · simp only [hj, decide_True]
    cases s.testBit j <;> cases mu.testBit j <;> rfl
  · rw [testBit_of_ge_64 hs (by omega)]
    simp

theorem tnum_add_wf (a b : tnum) : wf (tnum_add a b) :=
  and_not_u64_and_self (add_u64_lt _ _)

theorem tnum_sub_wf (a b : tnum) : wf (tnum_sub a b) :=
  and_not_u64_and_self (sub_u64_lt _ _)

theorem tnum_and_wf {a : tnum} (b : tnum) (ha : is_u64 a) : wf (tnum_and a b) := by
  unfold wf
  apply Nat.eq_of_testBit_eq
  intro j
  simp only [tnum_and, TNUM, Nat.testBit_and, Nat.testBit_or, testBit_not_u64,
    Nat.zero_testBit]
  by_cases hj : j < 64
  · simp only [hj, decide_True]
    cases a.value.testBit j <;> cases b.value.testBit j <;> simp
  · rw [testBit_of_ge_64 ha.1 (by omega)]
    simp

theorem tnum_mul_wf (a b : tnum) : wf (tnum_mul a b) :=
  tnum_add_wf _ _

theorem tnum_lshift_wf {a : tnum} (wa : wf a) (s : Nat) : wf (tnum_lshift a s) := by
  unfold wf
  apply Nat.eq_of_testBit_eq
  intro j
  have hw := wf_bits wa (j - s)
  simp only [tnum_lshift, TNUM, shl_u64, Nat.testBit_and, Nat.testBit_mod_two_pow,
    Nat.testBit_shiftLeft, Nat.zero_testBit]
  revert hw
  cases a.value.testBit (j - s) <;> cases a.mask.testBit (j - s) <;> simp

theorem tnum_rshift_wf {a : tnum} (wa : wf a) (s : Nat) : wf (tnum_rshift a s) := by
  unfold wf
  apply Nat.eq_of_testBit_eq
  intro j
  have hw := wf_bits wa (s + j)
  simp only [tnum_rshift, TNUM, shr_u64, Nat.testBit_and, Nat.testBit_shiftRight,
    Nat.zero_testBit]
  revert hw
  cases a.value.testBit (s + j) <;> cases a.mask.testBit (s + j) <;> simp

theorem tnum_add_is_u64 {a b : tnum} (ha : is_u64 a) (hb : is_u64 b) :
    is_u64 (tnum_add a b) := by
  refine ⟨tnum_add_value_lt a b, ?_⟩
  simp only [tnum_add, TNUM]
  exact Nat.or_lt_two_pow
    (Nat.or_lt_two_pow (Nat.xor_lt_two_pow (add_u64_lt _ _) (add_u64_lt _ _)) ha.2) hb.2

theorem tnum_lshift_is_u64 (a : tnum) (s : Nat) : is_u64 (tnum_lshift a s) :=
  ⟨Nat.mod_lt _ (Nat.two_pow_pos 64), Nat.mod_lt _ (Nat.two_pow_pos 64)⟩

/-! ### Soundness of the multiplication loop -/

theorem submask_bits {p m : Nat} (h : submask p m) (j : Nat) :
    p.testBit j = true → m.testBit j = true := by
  intro hj
  have e := congrArg (fun n => n.testBit j) h
  simp only [Nat.testBit_and, hj, Bool.true_and] at e
  exact e

theorem submask_of_bits {p m : Nat} (h : ∀ j, p.testBit j = true → m.testBit j = true) :
    submask p m := by
  apply Nat.eq_of_testBit_eq
  intro j
  rw [Nat.testBit_and]
  cases hp : p.testBit j
  · rfl
  · rw [h j hp]
    rfl

theorem submask_zero (m : Nat) : submask 0 m :=
  Nat.zero_and m

theorem submask_lt {p m : Nat} (h : submask p m) (hm : m < 2 ^ 64) : p < 2 ^ 64 :=
  lt_of_le_of_lt (Nat.le_of_testBit (submask_bits h)) hm

/-- A submask of `m` is a member of the tnum with no known one and mask `m`. -/
theorem member_zero_mask {t m : Nat} (h : submask t m) (ht : t < 2 ^ 64) :
    member t (TNUM 0 m) := by
  rw [member_iff_bits ht (by simp [TNUM])]
  intro j
  have hj := submask_bits h j
  simp only [TNUM, Nat.zero_testBit]
  revert hj
  cases t.testBit j <;> cases m.testBit j <;> simp

/-- The members of a well-formed tnum are `value + p` for the submasks `p` of the mask. -/
theorem member_decompose {x : Nat} {a : tnum} (hx : x < 2 ^ 64) (ha : is_u64 a)
    (mx : member x a) : submask (x &&& a.mask) a.mask ∧ x = a.value + (x &&& a.mask) := by
  have bx := (member_iff_bits hx ha.1).1 mx
  constructor
  · apply submask_of_bits
    intro j hj
    rw [Nat.testBit_and] at hj
    simp only [Bool.and_eq_true] at hj
    exact hj.2
  · rw [add_eq_or_of_disjoint]
    · apply Nat.eq_of_testBit_eq
      intro j
      rw [Nat.testBit_or, Nat.testBit_and, bx j]
      cases x.testBit j <;> cases a.mask.testBit j <;> rfl
    · intro j
      rw [Nat.testBit_and, bx j]
      cases x.testBit j <;> cases a.mask.testBit j <;> simp

theorem submask_half {p m : Nat} (h : submask p m) : submask (p / 2) (m >>> 1) := by
  apply submask_of_bits
  intro j hj
  rw [Nat.testBit_div_two] at hj
  rw [Nat.testBit_shiftRight, Nat.add_comm]
  exact submask_bits h _ hj

theorem submask_double {q m : Nat} (h : submask q m) :
    submask ((q * 2) % 2 ^ 64) (shl_u64 m 1) := by
  apply submask_of_bits
  intro j hj
  have e : q * 2 = q <<< 1 := by rw [Nat.shiftLeft_eq]
  rw [e] at hj
  unfold shl_u64
  rw [Nat.testBit_mod_two_pow, Nat.testBit_shiftLeft] at hj ⊢
  simp only [Bool.and_eq_true, decide_eq_true_eq] at hj ⊢
  exact ⟨hj.1, hj.2.1, submask_bits h _ hj.2.2⟩

theorem submask_mod_two {p m : Nat} (h : submask p m) (hm : m % 2 = 0) : p % 2 = 0 := by
  have h0 := submask_bits h 0
  simp only [Nat.testBit_zero, decide_eq_true_eq] at h0
  omega

theorem wf_mod_two {a : tnum} (wa : wf a) (h : a.value % 2 = 1) : a.mask % 2 = 0 := by
  have h0 := wf_bits wa 0
  simp only [Nat.testBit_zero, decide_eq_true_eq] at h0
  omega

theorem lsb_product_lt {a b : tnum} {p q : Nat} (hb : is_u64 b) (wa : wf a) (wb : wf b)
    (hp : submask p a.mask) (hq : submask q b.mask) :
    lsb_product a.value p b.value q < 2 ^ 64 ∧
      submask (lsb_product a.value p b.value q)
        (if a.value % 2 = 1 then b.mask else if a.mask % 2 = 1 then b.value ||| b.mask else 0) := by
  have hq64 := submask_lt hq hb.2
  have hdis : ∀ j, ¬ (b.value.testBit j = true ∧ q.testBit j = true) :=
    fun j ⟨h1, h2⟩ => wf_bits wb j ⟨h1, submask_bits hq j h2⟩
  have hsum : b.value + q = b.value ||| q := add_eq_or_of_disjoint _ _ hdis
  have hsub : submask (b.value ||| q) (b.value ||| b.mask) := by
    apply submask_of_bits
    intro j hj
    rw [Nat.testBit_or] at hj ⊢
    simp only [Bool.or_eq_true] at hj ⊢
    exact hj.imp id (submask_bits hq j)
  have hlt : b.value ||| q < 2 ^ 64 := Nat.or_lt_two_pow hb.1 hq64
  unfold lsb_product
  by_cases h1 : a.value % 2 = 1
  · have hp0 := submask_mod_two hp (wf_mod_two wa h1)
    rw [if_pos h1, h1, hp0]
    simp only [Nat.one_mul, Nat.zero_mul, Nat.add_zero]
    exact ⟨hq64, hq⟩
  · have h0 : a.value % 2 = 0 := by omega
    rw [if_neg h1, h0]
    simp only [Nat.zero_mul, Nat.zero_add]
    by_cases h2 : a.mask % 2 = 1
    · rw [if_pos h2, hsum]
      rcases Nat.mod_two_eq_zero_or_one p with hp0 | hp1
      · rw [hp0, Nat.zero_mul]
        exact ⟨Nat.two_pow_pos 64, submask_zero _⟩
      · rw [hp1, Nat.one_mul]
        exact ⟨hlt, hsub⟩
    · have hp0 := submask_mod_two hp (by omega : a.mask % 2 = 0)
      rw [if_neg h2, hp0, Nat.zero_mul]
      exact ⟨Nat.two_pow_pos 64, submask_zero _⟩

theorem tnum_mul_step_is_u64 {a b acc : tnum} (hb : is_u64 b) (hacc : is_u64 acc) :
    is_u64 (tnum_mul_step a b acc) := by
  unfold tnum_mul_step
  split_ifs
  · exact tnum_add_is_u64 hacc ⟨Nat.two_pow_pos 64, hb.2⟩
  · exact tnum_add_is_u64 hacc ⟨Nat.two_pow_pos 64, or_mask_lt hb⟩
  · exact hacc

theorem tnum_mul_step_wf {a b acc : tnum} (wacc : wf acc) : wf (tnum_mul_step a b acc) := by
  unfold tnum_mul_step
  split_ifs
  · exact tnum_add_wf _ _
  · exact tnum_add_wf _ _
  · exact wacc

/-- One pass of the loop adds the current partial product soundly. -/
theorem tnum_mul_step_sound {a b acc : tnum} {p q z : Nat}
    (hb : is_u64 b) (hacc : is_u64 acc) (wa : wf a) (wb : wf b) (wacc : wf acc)
    (hp : submask p a.mask) (hq : submask q b.mask)
    (hz : z < 2 ^ 64) (mz : member z acc) :
    member (add_u64 z (lsb_product a.value p b.value q)) (tnum_mul_step a b acc) := by
  obtain ⟨hlt, hsub⟩ := lsb_product_lt hb wa wb hp hq
  unfold tnum_mul_step
  simp only [Nat.and_one_is_mod]
  by_cases h1 : a.value % 2 = 1
  · rw [if_pos h1] at hsub
    rw [if_pos (by omega)]
    exact sound_tnum_add _ _ _ _ hacc ⟨Nat.two_pow_pos 64, hb.2⟩ wacc
      (by simp [wf, TNUM]) hz hlt mz (member_zero_mask hsub hlt)
  · rw [if_neg h1] at hsub
    rw [if_neg (by omega)]
    by_cases h2 : a.mask % 2 = 1
    · rw [if_pos h2] at hsub
      rw [if_pos (by omega)]
      exact sound_tnum_add _ _ _ _ hacc ⟨Nat.two_pow_pos 64, or_mask_lt hb⟩ wacc
        (by simp [wf, TNUM]) hz hlt mz (member_zero_mask hsub hlt)
    · rw [if_neg h2] at hsub
      rw [if_neg (by omega)]
      have h0 : lsb_product a.value p b.value q = 0 := by
        rw [← hsub]
        exact Nat.and_zero _
      rw [h0]
      unfold add_u64
      rw [Nat.add_zero, Nat.mod_eq_of_lt hz]
      exact mz

/-- Peeling the least significant bit of the multiplier off the mask part of
the product, modulo `2 ^ 64`. -/
theorem mul_loop_arith (av p bv q z : Nat) :
    (add_u64 z (lsb_product av p bv q) + (av >>> 1) * ((q * 2) % 2 ^ 64)
        + (p / 2) * ((bv <<< 1) % 2 ^ 64 + (q * 2) % 2 ^ 64)) % 2 ^ 64
      = (z + av * q + p * (bv + q)) % 2 ^ 64 := by
  have e1 : add_u64 z (lsb_product av p bv q) ≡ z + lsb_product av p bv q [MOD 2 ^ 64] :=
    Nat.mod_modEq _ _
  have e2 : (q * 2) % 2 ^ 64 ≡ q * 2 [MOD 2 ^ 64] := Nat.mod_modEq _ _
  have e3 : (bv <<< 1) % 2 ^ 64 ≡ bv * 2 [MOD 2 ^ 64] := by
    rw [Nat.shiftLeft_eq]
    exact Nat.mod_modEq _ _
  have h := (e1.add (e2.mul_left (av >>> 1))).add ((e3.add e2).mul_left (p / 2))
  unfold Nat.ModEq at h
  rw [h]
  congr 1
  have hav := Nat.div_add_mod av 2
  have hp := Nat.div_add_mod p 2
  rw [Nat.shiftRight_eq_div_pow, Nat.pow_one]
  unfold lsb_product
  conv_rhs => rw [← hav, ← hp]
  ring

theorem tnum_mul_loop_is_u64 (a b acc : tnum) :
    is_u64 b → is_u64 acc → is_u64 (tnum_mul_loop a b acc) := by
  induction a, b, acc using tnum_mul_loop.induct with
  | case1 a b acc h ih =>
    intro hb hacc
    rw [tnum_mul_loop, dif_pos h]
    exact ih (tnum_lshift_is_u64 b 1) (tnum_mul_step_is_u64 hb hacc)
  | case2 a b acc h =>
    intro _ hacc
    rw [tnum_mul_loop, dif_neg h]
    exact hacc

theorem tnum_mul_loop_wf (a b acc : tnum) : wf acc → wf (tnum_mul_loop a b acc) := by
  induction a, b, acc using tnum_mul_loop.induct with
  | case1 a b acc h ih =>
    intro wacc
    rw [tnum_mul_loop, dif_pos h]
    exact ih (tnum_mul_step_wf wacc)
  | case2 a b acc h =>
    intro wacc
    rw [tnum_mul_loop, dif_neg h]
    exact wacc

/-- Loop invariant of `tnum_mul`: a member `z` of `acc_m` plus the mask part of
the remaining product is a member of the final `acc_m`. -/
theorem tnum_mul_loop_sound (a b acc : tnum) :
    ∀ p q z : Nat, is_u64 b → is_u64 acc → wf a → wf b → wf acc →
      submask p a.mask → submask q b.mask → z < 2 ^ 64 → member z acc →
      member ((z + a.value * q + p * (b.value + q)) % 2 ^ 64) (tnum_mul_loop a b acc) := by
  induction a, b, acc using tnum_mul_loop.induct with
  | case1 a b acc h ih =>
    intro p q z hb hacc wa wb wacc hp hq hz mz
    rw [tnum_mul_loop, dif_pos h]
    have key := ih (p / 2) ((q * 2) % 2 ^ 64) (add_u64 z (lsb_product a.value p b.value q))
      (tnum_lshift_is_u64 b 1) (tnum_mul_step_is_u64 hb hacc) (tnum_rshift_wf wa 1)
      (tnum_lshift_wf wb 1) (tnum_mul_step_wf wacc) (submask_half hp) (submask_double hq)
      (add_u64_lt _ _) (tnum_mul_step_sound hb hacc wa wb wacc hp hq hz mz)
    simp only [tnum_rshift, tnum_lshift, TNUM, shr_u64, shl_u64] at key ⊢
    rw [mul_loop_arith] at key
    exact key
  | case2 a b acc h =>
    intro p q z _ _ _ _ _ hp _ hz mz
    rw [tnum_mul_loop, dif_neg h]
    have hv : a.value = 0 := by
      by_contra hne
      exact h (Or.inl hne)
    have hm : a.mask = 0 := by
      by_contra hne
      exact h (Or.inr hne)
    have hp0 : p = 0 := by
      rw [← hp, hm]
      exact Nat.and_zero _
    rw [hv, hp0, Nat.zero_mul, Nat.zero_mul, Nat.add_zero, Nat.mod_eq_of_lt hz]
    exact mz

theorem sound_tnum_mul (a b : tnum) (x y : Nat)
    (ha : is_u64 a) (hb : is_u64 b) (wa : wf a) (wb : wf b)
    (hx : x < 2 ^ 64) (hy : y < 2 ^ 64)
    (mx : member x a) (my : member y b) :
    member (mul_u64 x y) (tnum_mul a b) := by
  obtain ⟨hp, hxe⟩ := member_decompose hx ha mx
  obtain ⟨hq, hye⟩ := member_decompose hy hb my
  have h00 : is_u64 (TNUM 0 0) := ⟨Nat.two_pow_pos 64, Nat.two_pow_pos 64⟩
  have w00 : wf (TNUM 0 0) := by simp [wf, TNUM]
  have hl := tnum_mul_loop_sound a b (TNUM 0 0) (x &&& a.mask) (y &&& b.mask) 0 hb h00 wa wb w00
    hp hq (Nat.two_pow_pos 64) (by simp [member, TNUM])
  have hv : member (mul_u64 a.value b.value) (TNUM (mul_u64 a.value b.value) 0) := by
    rw [member_iff_bits (mul_u64_lt _ _) (mul_u64_lt _ _)]
    intro j
    simp [TNUM]
  have hs := sound_tnum_add (TNUM (mul_u64 a.value b.value) 0)
    (tnum_mul_loop a b (TNUM 0 0)) _ _ ⟨mul_u64_lt _ _, Nat.two_pow_pos 64⟩
    (tnum_mul_loop_is_u64 a b _ hb h00) (by simp [wf, TNUM]) (tnum_mul_loop_wf a b _ w00)
    (mul_u64_lt _ _) (Nat.mod_lt _ (Nat.two_pow_pos 64)) hv hl
  have e : add_u64 (mul_u64 a.value b.value)
      ((0 + a.value * (y &&& b.mask) + (x &&& a.mask) * (b.value + (y &&& b.mask))) % 2 ^ 64)
      = mul_u64 x y := by
    unfold add_u64 mul_u64
    rw [← Nat.add_mod]
    congr 1
    conv_rhs => rw [hxe, hye]
    ring
  rw [e] at hs
  exact hs

/-! ### Optimality of `tnum_add` -/

/-- The smallest member of a well-formed tnum is its `value`. -/
theorem member_value {a : tnum} (ha : is_u64 a) (wa : wf a) : member a.value a := by
  rw [member_iff_bits ha.1 ha.1]
  intro j
  have hw := wf_bits wa j
  revert hw
  cases a.value.testBit j <;> cases a.mask.testBit j <;> simp

/-- The largest member of a well-formed tnum is `value | mask`. -/
theorem member_value_or_mask {a : tnum} (ha : is_u64 a) (wa : wf a) :
    member (a.value ||| a.mask) a := by
  rw [member_iff_bits (or_mask_lt ha) ha.1]
  intro j
  have hw := wf_bits wa j
  rw [Nat.testBit_or]
  revert hw
  cases a.value.testBit j <;> cases a.mask.testBit j <;> simp

/-- Setting an unknown bit of the smallest member gives another member. -/
theorem member_value_or_bit {a : tnum} (ha : is_u64 a) (wa : wf a) {j : Nat} (hj : j < 64)
    (hm : a.mask.testBit j = true) : member (a.value ||| 2 ^ j) a := by
  rw [member_iff_bits (Nat.or_lt_two_pow ha.1 (Nat.pow_lt_pow_right (by decide) hj)) ha.1]
  intro k
  have hw := wf_bits wa k
  rw [Nat.testBit_or, Nat.testBit_two_pow]
  by_cases hk : j = k
  · subst hk
    rw [hm] at hw ⊢
    revert hw
    cases a.value.testBit j <;> simp
  · revert hw
    cases a.value.testBit k <;> cases a.mask.testBit k <;> simp [hk]

theorem or_bit_mod (v j : Nat) : (v ||| 2 ^ j) % 2 ^ j = v % 2 ^ j := by
  apply Nat.eq_of_testBit_eq
  intro k
  simp only [Nat.testBit_mod_two_pow, Nat.testBit_or, Nat.testBit_two_pow]
  by_cases hk : k < j
  · have : ¬ j = k := by omega
    simp [hk, this]
  · simp [hk]

theorem or_bit_testBit (v j : Nat) : (v ||| 2 ^ j).testBit j = true := by
  rw [Nat.testBit_or, Nat.testBit_two_pow]
  simp

/-- Flipping bit `j` of the left summand, below which nothing changes, flips
bit `j` of the sum. -/
theorem add_flip_left {x x2 y j : Nat} (hm : x2 % 2 ^ j = x % 2 ^ j)
    (hb : x2.testBit j = !x.testBit j) : (x2 + y).testBit j = !(x + y).testBit j := by
  rw [testBit_add_carry, testBit_add_carry, hm, hb]
  cases x.testBit j <;> cases y.testBit j <;>
    cases decide (2 ^ j ≤ x % 2 ^ j + y % 2 ^ j) <;> rfl

/-- What a tnum covering a sum forces on its known bits. -/
theorem cover_bit {s j : Nat} {t : tnum} (ht : is_u64 t) (hs : s < 2 ^ 64)
    (hm : member s t) (htm : t.mask.testBit j = false) : t.value.testBit j = s.testBit j := by
  have h := (member_iff_bits hs ht.1).1 hm j
  rw [htm] at h
  simpa using h

theorem optimal_tnum_add (a b t : tnum)
    (ha : is_u64 a) (hb : is_u64 b) (ht : is_u64 t) (wa : wf a) (wb : wf b) (wt : wf t)
    (hcover : ∀ x y, x < 2 ^ 64 → y < 2 ^ 64 → member x a → member y b →
      member (add_u64 x y) t) :
    ∀ z, z < 2 ^ 64 → member z (tnum_add a b) → member z t := by
  intro z hz mz
  have bz := (member_iff_bits hz (tnum_add_value_lt a b)).1 mz
  rw [member_iff_bits hz ht.1]
  intro j
  by_cases hj : j < 64
  · cases htm : t.mask.testBit j
    · -- bit `j` is known in `t`
      have cov : ∀ x y, x < 2 ^ 64 → y < 2 ^ 64 → member x a → member y b →
          t.value.testBit j = (x + y).testBit j := by
        intro x y hx hy mx my
        rw [cover_bit ht (add_u64_lt x y) (hcover x y hx hy mx my) htm, testBit_add_u64 _ _ hj]
      have c0 := cov _ _ ha.1 hb.1 (member_value ha wa) (member_value hb wb)
      have hr : (tnum_add a b).mask.testBit j = false := by
        rw [tnum_add_mask_bit wa wb hj]
        have c1 := cov _ _ (or_mask_lt ha) (or_mask_lt hb) (member_value_or_mask ha wa)
          (member_value_or_mask hb wb)
        rw [← c0, ← c1]
        simp only [bne_self_eq_false, Bool.false_or, Bool.or_eq_false_iff]
        constructor
        · cases ham : a.mask.testBit j
          · rfl
          · exfalso
            have hav : a.value.testBit j = false := by
              have := wf_bits wa j
              rw [ham] at this
              simpa using this
            have c2 := cov _ _ (Nat.or_lt_two_pow ha.1 (Nat.pow_lt_pow_right (by decide) hj))
              hb.1 (member_value_or_bit ha wa hj ham) (member_value hb wb)
            rw [add_flip_left (or_bit_mod _ _) (by rw [or_bit_testBit, hav]; rfl), ← c0] at c2
            revert c2
            cases t.value.testBit j <;> simp
        · cases hbm : b.mask.testBit j
          · rfl
          · exfalso
            have hbv : b.value.testBit j = false := by
              have := wf_bits wb j
              rw [hbm] at this
              simpa using this
            have c2 := cov _ _ ha.1
              (Nat.or_lt_two_pow hb.1 (Nat.pow_lt_pow_right (by decide) hj))
              (member_value ha wa) (member_value_or_bit hb wb hj hbm)
            rw [Nat.add_comm, add_flip_left (or_bit_mod _ _) (by rw [or_bit_testBit, hbv]; rfl),
              Nat.add_comm, ← c0] at c2
            revert c2
            cases t.value.testBit j <;> simp
      have hzj := bz j
      rw [hr, tnum_add_value_bit a b hj, hr, ← c0] at hzj
      simpa using hzj
    · have hw := wf_bits wt j
      rw [htm] at hw
      have : t.value.testBit j = false := by simpa using hw
      rw [this]
      simp
  · rw [testBit_of_ge_64 ht.1 (by omega), testBit_of_ge_64 hz (by omega)]
    rfl

/-! ### Constants and single unknown bits -/

/-- The only member of a constant is the constant itself. -/
theorem member_const_eq {x v : Nat} (hx : x < 2 ^ 64) (h : member x (TNUM v 0)) : x = v := by
  unfold member not_u64 at h
  simp only [TNUM, Nat.zero_xor] at h
  rw [Nat.and_pow_two_sub_one_of_lt_two_pow hx] at h
  exact h

/-- A tnum with a single unknown bit has at most two members. -/
theorem member_one_bit {y v k : Nat} (hy : y < 2 ^ 64) (hv : v < 2 ^ 64) (hk : k < 64)
    (h : member y (TNUM v (2 ^ k))) : y = v ∨ y = v + 2 ^ k := by
  have hd := (member_decompose hy ⟨hv, Nat.pow_lt_pow_right (by decide) hk⟩ h).2
  simp only [TNUM] at hd
  rw [Nat.and_two_pow] at hd
  cases hb : y.testBit k
  · left
    rw [hb] at hd
    simpa using hd
  · right
    rw [hb] at hd
    simpa using hd

theorem tnum_add_const_zero {v : Nat} (hv : v < 2 ^ 64) :
    tnum_add (TNUM v 0) (TNUM 0 0) = TNUM v 0 := by
  simp only [tnum_add, TNUM, add_u64, not_u64, Nat.add_zero, Nat.zero_add, Nat.zero_mod,
    Nat.mod_eq_of_lt hv, Nat.xor_self, Nat.or_zero, Nat.zero_xor,
    Nat.and_pow_two_sub_one_of_lt_two_pow hv]

/-- With a constant multiplier and a constant multiplicand the mask
accumulator never leaves `(0, 0)`. -/
theorem tnum_mul_loop_const (a b acc : tnum) :
    a.mask = 0 → b.mask = 0 → acc = TNUM 0 0 → tnum_mul_loop a b acc = TNUM 0 0 := by
  induction a, b, acc using tnum_mul_loop.induct with
  | case1 a b acc h ih =>
    intro ham hbm hacc
    rw [tnum_mul_loop, dif_pos h]
    apply ih
    · simp [tnum_rshift, TNUM, shr_u64, ham]
    · simp [tnum_lshift, TNUM, shl_u64, hbm]
    · unfold tnum_mul_step
      rw [ham, hbm, hacc]
      split_ifs with h1 h2
      · exact tnum_add_const_zero (Nat.two_pow_pos 64)
      · simp at h2
      · rfl
  | case2 a b acc h =>
    intro _ _ hacc
    rw [tnum_mul_loop, dif_neg h]
    exact hacc

/-- Multiplying two constants gives the constant product. -/
theorem tnum_mul_of_const (a b : tnum) (ham : a.mask = 0) (hbm : b.mask = 0) :
    tnum_mul a b = TNUM (mul_u64 a.value b.value) 0 := by
  unfold tnum_mul
  simp only []
  rw [tnum_mul_loop_const a b (TNUM 0 0) ham hbm rfl]
  exact tnum_add_const_zero (mul_u64_lt _ _)

/-! ### Concrete evaluations of `tnum_mul` -/

theorem tnum_mul_eval_3_0_1_2 : tnum_mul ⟨3, 0⟩ ⟨1, 2⟩ = ⟨1, 14⟩ := by
  unfold tnum_mul
  rw [tnum_mul_loop, dif_pos (by decide), tnum_mul_loop, dif_pos (by decide),
    tnum_mul_loop, dif_neg (by decide)]
  decide

theorem tnum_mul_eval_2_1_4_0 : tnum_mul ⟨2, 1⟩ ⟨4, 0⟩ = ⟨8, 4⟩ := by
  unfold tnum_mul
  rw [tnum_mul_loop, dif_pos (by decide), tnum_mul_loop, dif_pos (by decide),
    tnum_mul_loop, dif_neg (by decide)]
  decide

/-! ## The claims -/

/-- C1. Soundness of `tnum_mul`: for well-formed `a`, `b` and concrete 64-bit
`x` in the set of `a`, `y` in the set of `b`, the wrapped product `x * y` is in
the set of `tnum_mul a b`. -/
theorem tnum_mul_sound (a b : tnum) (x y : Nat)
    (ha : is_u64 a) (hb : is_u64 b) (wa : wf a) (wb : wf b)
    (hx : x < 2 ^ 64) (hy : y < 2 ^ 64)
    (mx : x &&& not_u64 a.mask = a.value) (my : y &&& not_u64 b.mask = b.value) :
    (mul_u64 x y) &&& not_u64 (tnum_mul a b).mask = (tnum_mul a b).value :=
  sound_tnum_mul a b x y ha hb wa wb hx hy mx my

/-- Witness for C1 at `a = (5, 2)`, `b = (1, 12)`, `x = 7`, `y = 9`. -/
theorem tnum_mul_sound_witness :
    member 7 ⟨5, 2⟩ ∧ member 9 ⟨1, 12⟩ ∧
      (mul_u64 7 9) &&& not_u64 (tnum_mul ⟨5, 2⟩ ⟨1, 12⟩).mask
        = (tnum_mul ⟨5, 2⟩ ⟨1, 12⟩).value :=
  ⟨by decide, by decide,
    tnum_mul_sound ⟨5, 2⟩ ⟨1, 12⟩ 7 9 (by decide) (by decide) (by decide) (by decide)
      (by decide) (by decide) (by decide) (by decide)⟩

/-- C2. Soundness of `tnum_add`: for well-formed `a`, `b` and concrete 64-bit
`x` in the set of `a`, `y` in the set of `b`, the wrapped sum `x + y` is in the
set of `tnum_add a b`. -/
theorem tnum_add_sound (a b : tnum) (x y : Nat)
    (ha : is_u64 a) (hb : is_u64 b) (wa : wf a) (wb : wf b)
    (hx : x < 2 ^ 64) (hy : y < 2 ^ 64)
    (mx : member x a) (my : member y b) :
    member (add_u64 x y) (tnum_add a b) :=
  sound_tnum_add a b x y ha hb wa wb hx hy mx my

/-- Witness for C2 at `a = (5, 2)`, `b = (2 ^ 64 - 4, 3)`, where the sum wraps. -/
theorem tnum_add_sound_witness :
    member 7 ⟨5, 2⟩ ∧ member (2 ^ 64 - 3) ⟨2 ^ 64 - 4, 3⟩ ∧
      member (add_u64 7 (2 ^ 64 - 3)) (tnum_add ⟨5, 2⟩ ⟨2 ^ 64 - 4, 3⟩) :=
  ⟨by decide, by decide,
    tnum_add_sound ⟨5, 2⟩ ⟨2 ^ 64 - 4, 3⟩ 7 (2 ^ 64 - 3) (by decide) (by decide) (by decide)
      (by decide) (by decide) (by decide) (by decide) (by decide)⟩

/-- C3. Soundness of `tnum_sub`: for well-formed `a`, `b` and concrete 64-bit
`x` in the set of `a`, `y` in the set of `b`, the wrapped difference `x - y` is
in the set of `tnum_sub a b`. -/
theorem tnum_sub_sound (a b : tnum) (x y : Nat)
    (ha : is_u64 a) (hb : is_u64 b) (wa : wf a) (wb : wf b)
    (hx : x < 2 ^ 64) (hy : y < 2 ^ 64)
    (mx : member x a) (my : member y b) :
    member (sub_u64 x y) (tnum_sub a b) :=
  sound_tnum_sub a b x y ha hb wa wb hx hy mx my

/-- Witness for C3 at `a = (4, 3)`, `b = (8, 1)`, where the difference wraps. -/
theorem tnum_sub_sound_witness :
    member 5 ⟨4, 3⟩ ∧ member 9 ⟨8, 1⟩ ∧ member (sub_u64 5 9) (tnum_sub ⟨4, 3⟩ ⟨8, 1⟩) :=
  ⟨by decide, by decide,
    tnum_sub_sound ⟨4, 3⟩ ⟨8, 1⟩ 5 9 (by decide) (by decide) (by decide) (by decide)
      (by decide) (by decide) (by decide) (by decide)⟩

/-- C4. Soundness of `tnum_and`: for well-formed `a`, `b` and concrete 64-bit
`x` in the set of `a`, `y` in the set of `b`, the conjunction `x & y` is in the
set of `tnum_and a b`. -/
theorem tnum_and_sound (a b : tnum) (x y : Nat)
    (ha : is_u64 a) (hb : is_u64 b) (_wa : wf a) (_wb : wf b)
    (hx : x < 2 ^ 64) (hy : y < 2 ^ 64)
    (mx : member x a) (my : member y b) :
    member (x &&& y) (tnum_and a b) :=
  sound_tnum_and a b x y ha hb hx hy mx my

/-- Witness for C4 at `a = (9, 6)`, `b = (3, 4)`, `x = 13`, `y = 7`. -/
theorem tnum_and_sound_witness :
    member 13 ⟨9, 6⟩ ∧ member 7 ⟨3, 4⟩ ∧ member (13 &&& 7) (tnum_and ⟨9, 6⟩ ⟨3, 4⟩) :=
  ⟨by decide, by decide,
    tnum_and_sound ⟨9, 6⟩ ⟨3, 4⟩ 13 7 (by decide) (by decide) (by decide) (by decide)
      (by decide) (by decide) (by decide) (by decide)⟩

/-- C5. Well-formedness closure: for well-formed inputs and a shift amount
`s < 64`, the results of `tnum_add`, `tnum_sub`, `tnum_and`, `tnum_mul`,
`tnum_lshift` and `tnum_rshift` all satisfy `value & mask == 0`. -/
theorem wf_closure (a b : tnum) (s : Nat)
    (ha : is_u64 a) (_hb : is_u64 b) (wa : wf a) (_wb : wf b) (_hs : s < 64) :
    (tnum_add a b).value &&& (tnum_add a b).mask = 0 ∧
    (tnum_sub a b).value &&& (tnum_sub a b).mask = 0 ∧
    (tnum_and a b).value &&& (tnum_and a b).mask = 0 ∧
    (tnum_mul a b).value &&& (tnum_mul a b).mask = 0 ∧
    (tnum_lshift a s).value &&& (tnum_lshift a s).mask = 0 ∧
    (tnum_rshift a s).value &&& (tnum_rshift a s).mask = 0 :=
  ⟨tnum_add_wf a b, tnum_sub_wf a b, tnum_and_wf b ha, tnum_mul_wf a b,
    tnum_lshift_wf wa s, tnum_rshift_wf wa s⟩

/-- Witness for C5 at `a = (5, 2)`, `b = (1, 12)` and the shift amount `63`. -/
theorem wf_closure_witness :
    (tnum_add ⟨5, 2⟩ ⟨1, 12⟩).value &&& (tnum_add ⟨5, 2⟩ ⟨1, 12⟩).mask = 0 ∧
    (tnum_sub ⟨5, 2⟩ ⟨1, 12⟩).value &&& (tnum_sub ⟨5, 2⟩ ⟨1, 12⟩).mask = 0 ∧
    (tnum_and ⟨5, 2⟩ ⟨1, 12⟩).value &&& (tnum_and ⟨5, 2⟩ ⟨1, 12⟩).mask = 0 ∧
    (tnum_mul ⟨5, 2⟩ ⟨1, 12⟩).value &&& (tnum_mul ⟨5, 2⟩ ⟨1, 12⟩).mask = 0 ∧
    (tnum_lshift ⟨5, 2⟩ 63).value &&& (tnum_lshift ⟨5, 2⟩ 63).mask = 0 ∧
    (tnum_rshift ⟨5, 2⟩ 63).value &&& (tnum_rshift ⟨5, 2⟩ 63).mask = 0 :=
  wf_closure ⟨5, 2⟩ ⟨1, 12⟩ 63 (by decide) (by decide) (by decide) (by decide) (by decide)

/-- C6. Optimality of `tnum_add`: for well-formed `a`, `b`, every well-formed
tnum `t` whose set contains all wrapped sums `x + y` of members of `a` and `b`
contains the whole set of `tnum_add a b`. -/
theorem tnum_add_optimal (a b t : tnum)
    (ha : is_u64 a) (hb : is_u64 b) (ht : is_u64 t) (wa : wf a) (wb : wf b) (wt : wf t)
    (hcover : ∀ x y, x < 2 ^ 64 → y < 2 ^ 64 → member x a → member y b →
      member (add_u64 x y) t) :
    ∀ z, z < 2 ^ 64 → member z (tnum_add a b) → member z t :=
  optimal_tnum_add a b t ha hb ht wa wb wt hcover

/-- Witness for C6 at `a = (2, 1)`, `b = (4, 0)` and the covering `t = (0, 7)`. -/
theorem tnum_add_optimal_witness :
    member 7 (tnum_add ⟨2, 1⟩ ⟨4, 0⟩) ∧ member 7 ⟨0, 7⟩ :=
  ⟨by decide,
    tnum_add_optimal ⟨2, 1⟩ ⟨4, 0⟩ ⟨0, 7⟩ (by decide) (by decide) (by decide) (by decide)
      (by decide) (by decide)
      (by
        intro x y hx hy mx my
        rw [member_const_eq hy my]
        rcases member_one_bit hx (by decide) (by decide : 0 < 64) mx with h | h
        · rw [h]
          decide
        · rw [h]
          decide)
      7 (by decide) (by decide)⟩

/-- C7, as stated, fails: with `a = (3, 0)` and `b = (1, 2)` the products are
`3` and `9`, all covered by the well-formed `t = (1, 10)`, yet
`tnum_mul a b = (1, 14)` also has the member `5`, which `t` does not have. -/
theorem tnum_mul_not_smallest :
    is_u64 ⟨3, 0⟩ ∧ is_u64 ⟨1, 2⟩ ∧ is_u64 ⟨1, 10⟩ ∧ wf ⟨3, 0⟩ ∧ wf ⟨1, 2⟩ ∧ wf ⟨1, 10⟩ ∧
    (∀ x y, x < 2 ^ 64 → y < 2 ^ 64 → member x ⟨3, 0⟩ → member y ⟨1, 2⟩ →
      member (mul_u64 x y) ⟨1, 10⟩) ∧
    ¬ (∀ z, z < 2 ^ 64 → member z (tnum_mul ⟨3, 0⟩ ⟨1, 2⟩) → member z ⟨1, 10⟩) := by
  refine ⟨by decide, by decide, by decide, by decide, by decide, by decide, ?_, ?_⟩
  · intro x y hx hy mx my
    rw [member_const_eq hx mx]
    rcases member_one_bit hy (by decide) (by decide : 1 < 64) my with h | h
    · rw [h]
      decide
    · rw [h]
      decide
  · intro h
    have h5 := h 5 (by decide) (by rw [tnum_mul_eval_3_0_1_2]; decide)
    revert h5
    decide

/-- C7, amended. For well-formed `a`, `b` the set of `tnum_mul a b` contains
every wrapped product `x * y` of members of `a` and `b`; when `a` and `b` are
both constants (`mask == 0`) it is the smallest such set: every well-formed
`t` covering all products contains the whole set of `tnum_mul a b`. -/
theorem tnum_mul_smallest_on_constants (a b t : tnum)
    (ha : is_u64 a) (hb : is_u64 b) (_ht : is_u64 t) (wa : wf a) (wb : wf b) (_wt : wf t) :
    (∀ x y, x < 2 ^ 64 → y < 2 ^ 64 → member x a → member y b →
      member (mul_u64 x y) (tnum_mul a b)) ∧
    (a.mask = 0 → b.mask = 0 →
      (∀ x y, x < 2 ^ 64 → y < 2 ^ 64 → member x a → member y b →
        member (mul_u64 x y) t) →
      ∀ z, z < 2 ^ 64 → member z (tnum_mul a b) → member z t) := by
  refine ⟨fun x y hx hy mx my => sound_tnum_mul a b x y ha hb wa wb hx hy mx my, ?_⟩
  intro ham hbm hcover z hz mz
  rw [tnum_mul_of_const a b ham hbm] at mz
  rw [member_const_eq hz mz]
  exact hcover a.value b.value ha.1 hb.1 (member_value ha wa) (member_value hb wb)

/-- Witness for the amended C7 at `a = (3, 0)`, `b = (5, 0)` and the covering
`t = (7, 8)`. -/
theorem tnum_mul_smallest_on_constants_witness :
    member (mul_u64 3 5) (tnum_mul ⟨3, 0⟩ ⟨5, 0⟩) ∧ member (mul_u64 3 5) ⟨7, 8⟩ :=
  have h := tnum_mul_smallest_on_constants ⟨3, 0⟩ ⟨5, 0⟩ ⟨7, 8⟩ (by decide) (by decide)
    (by decide) (by decide) (by decide) (by decide)
  have h1 := h.1 3 5 (by decide) (by decide) (by decide) (by decide)
  ⟨h1, h.2 rfl rfl
    (by
      intro x y hx hy mx my
      rw [member_const_eq hx mx, member_const_eq hy my]
      decide)
    (mul_u64 3 5) (by decide) h1⟩

/-- C8. The concrete multiplication example: `tnum_mul (2, 1) (4, 0)` is
exactly `(8, 4)`, and the 64-bit members of `(8, 4)` are exactly `8` and `12`. -/
theorem tnum_mul_example :
    tnum_mul ⟨2, 1⟩ ⟨4, 0⟩ = ⟨8, 4⟩ ∧
    ∀ z, z < 2 ^ 64 → (member z ⟨8, 4⟩ ↔ z = 8 ∨ z = 12) := by
  refine ⟨tnum_mul_eval_2_1_4_0, ?_⟩
  intro z hz
  constructor
  · intro h
    exact member_one_bit hz (by decide) (by decide : 2 < 64) h
  · rintro (h | h)
    · rw [h]
      decide
    · rw [h]
      decide

/-- C9. Zero multiplier: `tnum_mul (tnum_const 0) b` is `tnum_const 0`, that is
`(0, 0)`, for every `b`, in particular for every well-formed one. -/
theorem tnum_mul_zero (b : tnum) :
    tnum_mul (tnum_const 0) b = tnum_const 0 ∧ tnum_const 0 = ⟨0, 0⟩ := by
  refine ⟨?_, rfl⟩
  unfold tnum_mul
  rw [tnum_mul_loop, dif_neg (by decide)]
  simp only [tnum_const, TNUM, mul_u64, Nat.zero_mul, Nat.zero_mod]
  decide

/-- C10. `tnum_add tnum_unknown (tnum_const 0)` is `tnum_unknown`, that is
`(0, 2 ^ 64 - 1)`. -/
theorem tnum_add_unknown_zero :
    tnum_add tnum_unknown (tnum_const 0) = tnum_unknown ∧ tnum_unknown = ⟨0, 2 ^ 64 - 1⟩ :=
  ⟨by decide, rfl⟩

/-! ## Shifts, constants and the unknown tnum -/

theorem shl_u64_lt (x s : Nat) : shl_u64 x s < 2 ^ 64 :=
  Nat.mod_lt _ (Nat.two_pow_pos 64)

theorem shr_u64_lt {x : Nat} (hx : x < 2 ^ 64) (s : Nat) : shr_u64 x s < 2 ^ 64 := by
  unfold shr_u64
  rw [Nat.shiftRight_eq_div_pow]
  exact lt_of_le_of_lt (Nat.div_le_self _ _) hx

theorem testBit_shl_u64 (x s j : Nat) :
    (shl_u64 x s).testBit j = (decide (j < 64) && (decide (s ≤ j) && x.testBit (j - s))) := by
  unfold shl_u64
  rw [Nat.testBit_mod_two_pow, Nat.testBit_shiftLeft]

/-- The low `s` bits of a left-shifted `u64` are zero. -/
theorem shl_u64_mod (x s : Nat) : shl_u64 x s % 2 ^ s = 0 := by
  apply Nat.eq_of_testBit_eq
  intro j
  rw [Nat.testBit_mod_two_pow, testBit_shl_u64, Nat.zero_testBit]
  by_cases h : j < s
  · have : ¬ s ≤ j := by omega
    simp [this]
  · simp [h]

/-- The high `s` bits of a right-shifted `u64` are zero. -/
theorem shr_u64_high {x : Nat} (hx : x < 2 ^ 64) {s : Nat} (hs : s ≤ 64) :
    shr_u64 x s < 2 ^ (64 - s) := by
  unfold shr_u64
  rw [Nat.shiftRight_eq_div_pow, Nat.div_lt_iff_lt_mul (Nat.two_pow_pos s), ← Nat.pow_add]
  have : 64 - s + s = 64 := by omega
  rw [this]
  exact hx

theorem sound_tnum_lshift {a : tnum} {x : Nat} (ha : is_u64 a) (hx : x < 2 ^ 64)
    (mx : member x a) (s : Nat) : member (shl_u64 x s) (tnum_lshift a s) := by
  have bx := (member_iff_bits hx ha.1).1 mx
  rw [member_iff_bits (shl_u64_lt x s) (shl_u64_lt _ _)]
  intro j
  simp only [tnum_lshift, TNUM, testBit_shl_u64, bx (j - s)]
  cases decide (j < 64) <;> cases decide (s ≤ j) <;> cases x.testBit (j - s) <;>
    cases a.mask.testBit (j - s) <;> rfl

theorem sound_tnum_rshift {a : tnum} {x : Nat} (ha : is_u64 a) (hx : x < 2 ^ 64)
    (mx : member x a) (s : Nat) : member (shr_u64 x s) (tnum_rshift a s) := by
  have bx := (member_iff_bits hx ha.1).1 mx
  rw [member_iff_bits (shr_u64_lt hx s) (shr_u64_lt ha.1 s)]
  intro j
  simp only [tnum_rshift, TNUM, shr_u64, Nat.testBit_shiftRight, bx (s + j)]

/-! ### The number of passes of the multiplication loop -/

/-- The bit length of a nonzero number is one more than that of its half. -/
theorem size_half {n : Nat} (hn : n ≠ 0) : Nat.size n = Nat.size (n / 2) + 1 := by
  apply le_antisymm
  · rw [Nat.size_le, Nat.pow_succ]
    have := Nat.lt_size_self (n / 2)
    omega
  · have h1 : Nat.size (n / 2) < Nat.size n := by
      rw [Nat.lt_size]
      rcases Nat.eq_zero_or_pos (n / 2) with h0 | hpos
      · rw [h0, Nat.size_zero]
        simp only [Nat.pow_zero]
        omega
      · have h3 : Nat.size (n / 2) - 1 < Nat.size (n / 2) :=
          Nat.sub_lt (Nat.size_pos.2 hpos) Nat.one_pos
        rw [Nat.lt_size] at h3
        have h4 : 2 ^ Nat.size (n / 2) = 2 * 2 ^ (Nat.size (n / 2) - 1) := by
          rw [← Nat.pow_succ']
          congr 1
          have := Nat.size_pos.2 hpos
          omega
        omega
    omega

theorem or_shiftRight_one (v m : Nat) : (v >>> 1) ||| (m >>> 1) = (v ||| m) / 2 := by
  rw [Nat.shiftRight_eq_div_pow, Nat.shiftRight_eq_div_pow, Nat.pow_one, Nat.or_div_two]

theorem or_ne_zero_iff (v m : Nat) : (v ≠ 0 ∨ m ≠ 0) ↔ v ||| m ≠ 0 := by
  constructor
  · rintro (h | h) h0
    · have := Nat.le_of_testBit (n := v) (m := v ||| m) (fun j hj => by
        rw [Nat.testBit_or, hj]; rfl)
      omega
    · have := Nat.le_of_testBit (n := m) (m := v ||| m) (fun j hj => by
        rw [Nat.testBit_or, hj, Bool.or_true])
      omega
  · intro h
    by_contra hc
    have hv : v = 0 := by
      by_contra hne
      exact hc (Or.inl hne)
    have hm : m = 0 := by
      by_contra hne
      exact hc (Or.inr hne)
    rw [hv, hm] at h
    exact h rfl

/-- The counter does not change the `acc_m` the loop computes, and the loop
makes as many passes as `a.value | a.mask` has bits. -/
theorem tnum_mul_loop_counted_eq (a b acc : tnum) (n : Nat) :
    tnum_mul_loop_counted a b acc n
      = (tnum_mul_loop a b acc, n + Nat.size (a.value ||| a.mask)) := by
  induction a, b, acc using tnum_mul_loop.induct generalizing n with
  | case1 a b acc h ih =>
    rw [tnum_mul_loop_counted, dif_pos h, tnum_mul_loop, dif_pos h, ih]
    have hne := (or_ne_zero_iff _ _).1 h
    simp only [tnum_rshift, TNUM, shr_u64, or_shiftRight_one]
    rw [size_half hne]
    congr 1
    omega
  | case2 a b acc h =>
    rw [tnum_mul_loop_counted, dif_neg h, tnum_mul_loop, dif_neg h]
    have h0 : a.value ||| a.mask = 0 := by
      by_contra hne
      exact h ((or_ne_zero_iff _ _).2 hne)
    rw [h0, Nat.size_zero]
    rfl

theorem size_seven : Nat.size 7 = 3 := by
  apply le_antisymm
  · rw [Nat.size_le]
    decide
  · show 2 < Nat.size 7
    rw [Nat.lt_size]
    decide

/-! ### Canonical representation -/

/-- Two well-formed tnums with the same 64-bit members are the same struct. -/
theorem eq_of_same_members {a b : tnum} (ha : is_u64 a) (hb : is_u64 b) (wa : wf a) (wb : wf b)
    (h : ∀ v, v < 2 ^ 64 → (member v a ↔ member v b)) : a = b := by
  have a1 := (member_iff_bits ha.1 hb.1).1 ((h _ ha.1).1 (member_value ha wa))
  have a2 := (member_iff_bits (or_mask_lt ha) hb.1).1
    ((h _ (or_mask_lt ha)).1 (member_value_or_mask ha wa))
  have b1 := (member_iff_bits hb.1 ha.1).1 ((h _ hb.1).2 (member_value hb wb))
  have b2 := (member_iff_bits (or_mask_lt hb) ha.1).1
    ((h _ (or_mask_lt hb)).2 (member_value_or_mask hb wb))
  have hv : a.value = b.value := by
    apply Nat.eq_of_testBit_eq
    intro j
    have e1 := a1 j
    have e2 := b1 j
    revert e1 e2
    cases a.value.testBit j <;> cases b.value.testBit j <;> cases a.mask.testBit j <;>
      cases b.mask.testBit j <;> simp
  have hm : a.mask = b.mask := by
    apply Nat.eq_of_testBit_eq
    intro j
    have e1 := a1 j
    have e2 := b1 j
    have e3 := a2 j
    have e4 := b2 j
    have w1 := wf_bits wa j
    have w2 := wf_bits wb j
    rw [Nat.testBit_or] at e3 e4
    revert e1 e2 e3 e4 w1 w2
    cases a.value.testBit j <;> cases b.value.testBit j <;> cases a.mask.testBit j <;>
      cases b.mask.testBit j <;> simp
  cases a
  cases b
  simp only [tnum.mk.injEq]
  exact ⟨hv, hm⟩

theorem member_unknown (v : Nat) : member v tnum_unknown := by
  unfold member not_u64 tnum_unknown
  simp only [Nat.xor_self, Nat.and_zero]

theorem and_not_u64_self {m : Nat} (hm : m < 2 ^ 64) : m &&& not_u64 m = 0 := by
  apply Nat.eq_of_testBit_eq
  intro j
  rw [Nat.testBit_and, testBit_not_u64, Nat.zero_testBit]
  by_cases hj : j < 64
  · simp only [hj, decide_True]
    cases m.testBit j <;> rfl
  · rw [testBit_of_ge_64 hm (by omega)]
    rfl

theorem tnum_add_value_zero {acc : tnum} (m : Nat) (h : acc.value = 0) :
    (tnum_add acc (TNUM 0 m)).value = 0 := by
  simp only [tnum_add, TNUM, h, add_u64, Nat.add_zero, Nat.zero_mod, Nat.zero_and]

theorem tnum_mul_step_value_zero (a b : tnum) {acc : tnum} (h : acc.value = 0) :
    (tnum_mul_step a b acc).value = 0 := by
  unfold tnum_mul_step
  split_ifs
  · exact tnum_add_value_zero _ h
  · exact tnum_add_value_zero _ h
  · exact h

theorem tnum_mul_loop_value_zero (a b acc : tnum) :
    acc.value = 0 → (tnum_mul_loop a b acc).value = 0 := by
  induction a, b, acc using tnum_mul_loop.induct with
  | case1 a b acc h ih =>
    intro h0
    rw [tnum_mul_loop, dif_pos h]
    exact ih (tnum_mul_step_value_zero a b h0)
  | case2 a b acc h =>
    intro h0
    rw [tnum_mul_loop, dif_neg h]
    exact h0

/-- Adding a tnum with no known one to a constant keeps the known bits of the
constant. -/
theorem tnum_add_const_value {v : Nat} (hv : v < 2 ^ 64) {acc : tnum} (h : acc.value = 0) :
    (tnum_add (TNUM v 0) acc).value = v &&& not_u64 (tnum_add (TNUM v 0) acc).mask := by
  simp only [tnum_add, TNUM, h, add_u64, Nat.add_zero, Nat.mod_eq_of_lt hv]

/-! ### The range constructor -/

/-- Bit `log2 n` of a nonzero `n` is set. -/
theorem testBit_log2 {n : Nat} (hn : n ≠ 0) : n.testBit (Nat.log2 n) = true := by
  rw [Nat.testBit_to_div_mod]
  have h1 := Nat.log2_self_le hn
  have h2 := Nat.lt_log2_self (n := n)
  have h3 : n / 2 ^ Nat.log2 n = 1 := by
    apply Nat.div_eq_of_lt_le
    · rw [Nat.one_mul]
      exact h1
    · rw [Nat.pow_succ] at h2
      omega
  rw [h3]
  rfl

/-- No bit above `log2 n` is set. -/
theorem testBit_above_log2 (n : Nat) {j : Nat} (hj : Nat.log2 n < j) : n.testBit j = false :=
  Nat.testBit_lt_two_pow
    (lt_of_lt_of_le Nat.lt_log2_self (Nat.pow_le_pow_right (by decide) hj))

theorem testBit_div_two_pow (n k i : Nat) : (n / 2 ^ k).testBit i = n.testBit (k + i) := by
  rw [← Nat.shiftRight_eq_div_pow, Nat.testBit_shiftRight]

/-- Numbers between two numbers that agree on all bits from `k` upwards agree
with them on those bits. -/
theorem testBit_between {lo hi v k : Nat} (h1 : lo ≤ v) (h2 : v ≤ hi)
    (hagree : ∀ j, k ≤ j → lo.testBit j = hi.testBit j) {j : Nat} (hj : k ≤ j) :
    v.testBit j = lo.testBit j := by
  have e : lo / 2 ^ k = hi / 2 ^ k := by
    apply Nat.eq_of_testBit_eq
    intro i
    rw [testBit_div_two_pow, testBit_div_two_pow]
    exact hagree _ (Nat.le_add_right k i)
  have e2 : v / 2 ^ k = lo / 2 ^ k := by
    apply le_antisymm
    · rw [e]
      exact Nat.div_le_div_right h2
    · exact Nat.div_le_div_right h1
  have hjk : j = k + (j - k) := by omega
  rw [hjk, ← testBit_div_two_pow, ← testBit_div_two_pow, e2]

/-- The bits of `min` and `max` around the highest bit where they differ. -/
theorem range_bits {min max : Nat} (hlt : min < max) :
    min.testBit (Nat.log2 (min ^^^ max)) = false ∧
    max.testBit (Nat.log2 (min ^^^ max)) = true ∧
    ∀ j, Nat.log2 (min ^^^ max) < j → min.testBit j = max.testBit j := by
  have hne : min ^^^ max ≠ 0 := by
    intro h0
    have : min = max := by
      apply Nat.eq_of_testBit_eq
      intro j
      have hj := congrArg (fun n => n.testBit j) h0
      simp only [Nat.testBit_xor, Nat.zero_testBit] at hj
      revert hj
      cases min.testBit j <;> cases max.testBit j <;> simp
    omega
  have hb := testBit_log2 hne
  have habove : ∀ j, Nat.log2 (min ^^^ max) < j → min.testBit j = max.testBit j := by
    intro j hj
    have := testBit_above_log2 (min ^^^ max) hj
    rw [Nat.testBit_xor] at this
    revert this
    cases min.testBit j <;> cases max.testBit j <;> simp
  rw [Nat.testBit_xor] at hb
  refine ⟨?_, ?_, habove⟩
  · cases hmin : min.testBit (Nat.log2 (min ^^^ max))
    · rfl
    · exfalso
      rw [hmin] at hb
      have hmax : max.testBit (Nat.log2 (min ^^^ max)) = false := by
        revert hb
        cases max.testBit (Nat.log2 (min ^^^ max)) <;> simp
      have := Nat.lt_of_testBit _ hmax hmin (fun j hj => (habove j hj).symm)
      omega
  · cases hmax : max.testBit (Nat.log2 (min ^^^ max))
    · exfalso
      rw [hmax] at hb
      have hmin : min.testBit (Nat.log2 (min ^^^ max)) = true := by
        revert hb
        cases min.testBit (Nat.log2 (min ^^^ max)) <;> simp
      have := Nat.lt_of_testBit _ hmax hmin (fun j hj => (habove j hj).symm)
      omega
    · rfl

theorem range_log2_lt {min max : Nat} (hlt : min < max) (hmax : max < 2 ^ 64) :
    Nat.log2 (min ^^^ max) < 64 := by
  have hx : min ^^^ max < 2 ^ 64 := Nat.xor_lt_two_pow (lt_trans hlt hmax) hmax
  by_contra hge
  have h64 : (64 : Nat) ≤ Nat.log2 (min ^^^ max) := by omega
  have hne : min ^^^ max ≠ 0 := by
    intro h0
    rw [h0, Nat.log2_zero] at h64
    omega
  have := (Nat.le_log2 hne).1 h64
  omega

theorem tnum_range_of_lt {min max : Nat} (hlt : min < max) :
    tnum_range min max
      = TNUM (min &&& not_u64 (2 ^ (Nat.log2 (min ^^^ max) + 1) - 1))
          (2 ^ (Nat.log2 (min ^^^ max) + 1) - 1) := by
  unfold tnum_range
  rw [if_neg (by omega)]

theorem tnum_range_value_bit {min max : Nat} (hlt : min < max) (j : Nat) :
    (tnum_range min max).value.testBit j
      = (min.testBit j && (decide (j < Nat.log2 (min ^^^ max) + 1) ^^ decide (j < 64))) := by
  rw [tnum_range_of_lt hlt]
  simp only [TNUM, Nat.testBit_and, testBit_not_u64, Nat.testBit_two_pow_sub_one]

theorem tnum_range_mask_bit {min max : Nat} (hlt : min < max) (j : Nat) :
    (tnum_range min max).mask.testBit j = decide (j < Nat.log2 (min ^^^ max) + 1) := by
  rw [tnum_range_of_lt hlt]
  simp only [TNUM, Nat.testBit_two_pow_sub_one]

theorem tnum_range_value_lt {min max : Nat} (hle : min ≤ max) (hmax : max < 2 ^ 64) :
    (tnum_range min max).value < 2 ^ 64 := by
  unfold tnum_range
  split_ifs
  · exact lt_of_le_of_lt hle hmax
  · exact lt_of_le_of_lt Nat.and_le_left (lt_of_le_of_lt hle hmax)

/-- Every number of the interval is a member of the range tnum. -/
theorem tnum_range_covers {min max v : Nat} (hle : min ≤ max) (hmax : max < 2 ^ 64)
    (h1 : min ≤ v) (h2 : v ≤ max) : member v (tnum_range min max) := by
  rcases Nat.eq_or_lt_of_le hle with heq | hlt
  · have hv : v = min := by omega
    unfold tnum_range
    rw [if_pos heq, hv]
    exact member_value (a := tnum_const min) ⟨lt_of_le_of_lt hle hmax, Nat.two_pow_pos 64⟩
      (Nat.and_zero min)
  · have hv64 : v < 2 ^ 64 := lt_of_le_of_lt h2 hmax
    obtain ⟨_, _, habove⟩ := range_bits hlt
    rw [member_iff_bits hv64 (tnum_range_value_lt hle hmax)]
    intro j
    rw [tnum_range_value_bit hlt, tnum_range_mask_bit hlt]
    have hb64 := range_log2_lt hlt hmax
    by_cases hj : j < Nat.log2 (min ^^^ max) + 1
    · have h64 : j < 64 := by omega
      simp [hj, h64]
    · have hvj : v.testBit j = min.testBit j :=
        testBit_between (k := Nat.log2 (min ^^^ max) + 1) h1 h2
          (fun i hi => habove i (by omega)) (by omega)
      rw [hvj]
      by_cases h64 : j < 64
      · simp [hj, h64]
      · have : min.testBit j = false :=
          testBit_of_ge_64 (lt_of_le_of_lt hle hmax) (by omega)
        simp [this]

/-- Two numbers of the interval that differ in every bit up to the highest
bit where `min` and `max` differ: `min` with the lower bits set, and `max`
with the lower bits cleared. -/
theorem range_low_members {min max : Nat} (hlt : min < max) :
    min ≤ min ||| (2 ^ Nat.log2 (min ^^^ max) - 1) ∧
    min ||| (2 ^ Nat.log2 (min ^^^ max) - 1) ≤ max ∧
    min ≤ (max >>> Nat.log2 (min ^^^ max)) <<< Nat.log2 (min ^^^ max) ∧
    (max >>> Nat.log2 (min ^^^ max)) <<< Nat.log2 (min ^^^ max) ≤ max := by
  obtain ⟨hmin, hmaxb, habove⟩ := range_bits hlt
  refine ⟨?_, ?_, ?_, ?_⟩
  · apply Nat.le_of_testBit
    intro j hj
    rw [Nat.testBit_or, hj]
    rfl
  · apply Nat.le_of_lt
    apply Nat.lt_of_testBit (Nat.log2 (min ^^^ max))
    · rw [Nat.testBit_or, hmin, Nat.testBit_two_pow_sub_one]
      simp
    · exact hmaxb
    · intro j hj
      rw [Nat.testBit_or, Nat.testBit_two_pow_sub_one, habove j hj]
      have : ¬ j < Nat.log2 (min ^^^ max) := by omega
      simp [this]
  · apply Nat.le_of_lt
    apply Nat.lt_of_testBit (Nat.log2 (min ^^^ max))
    · exact hmin
    · rw [Nat.testBit_shiftLeft, Nat.testBit_shiftRight]
      simp [hmaxb]
    · intro j hj
      rw [Nat.testBit_shiftLeft, Nat.testBit_shiftRight, habove j hj]
      have h1 : Nat.log2 (min ^^^ max) + (j - Nat.log2 (min ^^^ max)) = j := by omega
      have h2 : j ≥ Nat.log2 (min ^^^ max) := by omega
      rw [h1]
      simp [h2]
  · apply Nat.le_of_testBit
    intro j hj
    rw [Nat.testBit_shiftLeft, Nat.testBit_shiftRight] at hj
    simp only [Bool.and_eq_true, decide_eq_true_eq] at hj
    have h1 : Nat.log2 (min ^^^ max) + (j - Nat.log2 (min ^^^ max)) = j := by omega
    rw [h1] at hj
    exact hj.2

/-- The two numbers of `range_low_members` differ in every bit up to the
highest bit where `min` and `max` differ. -/
theorem range_low_members_differ {min max : Nat} (hlt : min < max) {j : Nat}
    (hj : j < Nat.log2 (min ^^^ max) + 1) :
    (min ||| (2 ^ Nat.log2 (min ^^^ max) - 1)).testBit j
      ≠ ((max >>> Nat.log2 (min ^^^ max)) <<< Nat.log2 (min ^^^ max)).testBit j := by
  obtain ⟨hmin, hmaxb, _⟩ := range_bits hlt
  rw [Nat.testBit_or, Nat.testBit_two_pow_sub_one, Nat.testBit_shiftLeft,
    Nat.testBit_shiftRight]
  by_cases hb : j < Nat.log2 (min ^^^ max)
  · have : ¬ j ≥ Nat.log2 (min ^^^ max) := by omega
    simp [hb, this]
  · have hjb : j = Nat.log2 (min ^^^ max) := by omega
    rw [hjb, hmin]
    simp [hmaxb]

/-- Every well-formed tnum covering the interval contains the range tnum. -/
theorem tnum_range_tight {min max : Nat} (hle : min ≤ max) (hmax : max < 2 ^ 64) {t : tnum}
    (ht : is_u64 t) (wt : wf t) (hcover : ∀ v, min ≤ v → v ≤ max → member v t) :
    ∀ z, z < 2 ^ 64 → member z (tnum_range min max) → member z t := by
  intro z hz mz
  rcases Nat.eq_or_lt_of_le hle with heq | hlt
  · unfold tnum_range at mz
    rw [if_pos heq] at mz
    rw [member_const_eq hz mz]
    exact hcover min (Nat.le_refl _) hle
  · have bz := (member_iff_bits hz (tnum_range_value_lt hle hmax)).1 mz
    have hmin64 : min < 2 ^ 64 := lt_of_le_of_lt hle hmax
    obtain ⟨hu1, hu2, hw1, hw2⟩ := range_low_members hlt
    rw [member_iff_bits hz ht.1]
    intro j
    cases htm : t.mask.testBit j
    · by_cases hj : j < Nat.log2 (min ^^^ max) + 1
      · exfalso
        have c1 := cover_bit ht (lt_of_le_of_lt hu2 hmax) (hcover _ hu1 hu2) htm
        have c2 := cover_bit ht (lt_of_le_of_lt hw2 hmax) (hcover _ hw1 hw2) htm
        exact range_low_members_differ hlt hj (c1.symm.trans c2)
      · have c0 := cover_bit ht hmin64 (hcover min (Nat.le_refl _) hle) htm
        have hzj := bz j
        rw [tnum_range_value_bit hlt, tnum_range_mask_bit hlt] at hzj
        by_cases h64 : j < 64
        · simp only [hj, h64, decide_False, decide_True, Bool.false_xor, Bool.and_true,
            Bool.not_false] at hzj
          rw [c0, hzj]
          simp
        · rw [testBit_of_ge_64 ht.1 (by omega), testBit_of_ge_64 hz (by omega)]
          rfl
    · have hw := wf_bits wt j
      rw [htm] at hw
      have : t.value.testBit j = false := by simpa using hw
      rw [this]
      simp

theorem tnum_range_wf {min : Nat} (max : Nat) (hmin : min < 2 ^ 64) :
    wf (tnum_range min max) := by
  unfold tnum_range
  split_ifs
  · exact Nat.and_zero min
  · unfold wf
    apply Nat.eq_of_testBit_eq
    intro j
    simp only [TNUM, Nat.testBit_and, testBit_not_u64, Nat.testBit_two_pow_sub_one,
      Nat.zero_testBit]
    by_cases hj : j < 64
    · simp only [hj, decide_True]
      cases min.testBit j <;> cases decide (j < Nat.log2 (min ^^^ max) + 1) <;> rfl
    · rw [testBit_of_ge_64 hmin (by omega)]
      rfl

theorem tnum_range_eval_4_7 : tnum_range 4 7 = ⟨4, 3⟩ := by
  rw [tnum_range_of_lt (by decide)]
  have h : Nat.log2 (4 ^^^ 7) = 1 := by simp [Nat.log2]
  rw [h]
  decide

theorem tnum_range_eval_5_5 : tnum_range 5 5 = ⟨5, 0⟩ := by
  unfold tnum_range
  rw [if_pos rfl]
  rfl

/-! ## The claims, continued -/

/-- C11. `tnum_and tnum_unknown tnum_unknown` is `tnum_unknown`, that is
`(0, 2 ^ 64 - 1)`. -/
theorem tnum_and_unknown_unknown :
    tnum_and tnum_unknown tnum_unknown = tnum_unknown ∧ tnum_unknown = ⟨0, 2 ^ 64 - 1⟩ :=
  ⟨by decide, rfl⟩

/-- C12. `tnum_lshift`: for a well-formed `a` and a shift `s < 64` the result is
`(a.value << s mod 2^64, a.mask << s mod 2^64)`, its low `s` bits are zero in
value and mask, and for every 64-bit `x` in the set of `a` the shifted value
`(x << s) mod 2^64` is in the set of the result. -/
theorem tnum_lshift_spec (a : tnum) (s : Nat) (ha : is_u64 a) (_wa : wf a) (_hs : s < 64) :
    tnum_lshift a s = ⟨(a.value <<< s) % 2 ^ 64, (a.mask <<< s) % 2 ^ 64⟩ ∧
    (tnum_lshift a s).value % 2 ^ s = 0 ∧ (tnum_lshift a s).mask % 2 ^ s = 0 ∧
    ∀ x, x < 2 ^ 64 → member x a → member ((x <<< s) % 2 ^ 64) (tnum_lshift a s) :=
  ⟨rfl, shl_u64_mod a.value s, shl_u64_mod a.mask s,
    fun _ hx mx => sound_tnum_lshift ha hx mx s⟩

/-- Witness for C12 at `a = (2 ^ 63 + 4, 3)`, `s = 2` and `x = 2 ^ 63 + 5`,
whose top bit is shifted out. -/
theorem tnum_lshift_spec_witness :
    tnum_lshift ⟨2 ^ 63 + 4, 3⟩ 2 = ⟨16, 12⟩ ∧ member 20 (tnum_lshift ⟨2 ^ 63 + 4, 3⟩ 2) :=
  ⟨by decide,
    (tnum_lshift_spec ⟨2 ^ 63 + 4, 3⟩ 2 (by decide) (by decide) (by decide)).2.2.2
      (2 ^ 63 + 5) (by decide) (by decide)⟩

/-- C13. `tnum_rshift`: for a well-formed `a` and a shift `s < 64` the result is
`(a.value >> s, a.mask >> s)` with the logical shift, its high `s` bits are
zero in value and mask, and for every 64-bit `x` in the set of `a` the shifted
value `x >> s` is in the set of the result. -/
theorem tnum_rshift_spec (a : tnum) (s : Nat) (ha : is_u64 a) (_wa : wf a) (hs : s < 64) :
    tnum_rshift a s = ⟨a.value >>> s, a.mask >>> s⟩ ∧
    (tnum_rshift a s).value < 2 ^ (64 - s) ∧ (tnum_rshift a s).mask < 2 ^ (64 - s) ∧
    ∀ x, x < 2 ^ 64 → member x a → member (x >>> s) (tnum_rshift a s) :=
  ⟨rfl, shr_u64_high ha.1 (Nat.le_of_lt hs), shr_u64_high ha.2 (Nat.le_of_lt hs),
    fun _ hx mx => sound_tnum_rshift ha hx mx s⟩

/-- Witness for C13 at `a = (2 ^ 63 + 4, 3)`, `s = 2` and `x = 2 ^ 63 + 6`. -/
theorem tnum_rshift_spec_witness :
    tnum_rshift ⟨2 ^ 63 + 4, 3⟩ 2 = ⟨2 ^ 61 + 1, 0⟩ ∧
      member (2 ^ 61 + 1) (tnum_rshift ⟨2 ^ 63 + 4, 3⟩ 2) :=
  ⟨by decide,
    (tnum_rshift_spec ⟨2 ^ 63 + 4, 3⟩ 2 (by decide) (by decide) (by decide)).2.2.2
      (2 ^ 63 + 6) (by decide) (by decide)⟩

/-- C14. Termination bound of `tnum_mul`: for 64-bit `a` and `b`, well-formed or
not, the loop ends after as many passes as `a.value | a.mask` has bits, which
is at most 64; the counter leaves the computed `acc_m` unchanged. -/
theorem tnum_mul_iterations (a b : tnum) (ha : is_u64 a) (_hb : is_u64 b) :
    (tnum_mul_loop_counted a b (TNUM 0 0) 0).1 = tnum_mul_loop a b (TNUM 0 0) ∧
    (tnum_mul_loop_counted a b (TNUM 0 0) 0).2 = Nat.size (a.value ||| a.mask) ∧
    (tnum_mul_loop_counted a b (TNUM 0 0) 0).2 ≤ 64 := by
  rw [tnum_mul_loop_counted_eq]
  refine ⟨rfl, Nat.zero_add _, ?_⟩
  simp only [Nat.zero_add]
  rw [Nat.size_le]
  exact or_mask_lt ha

/-- Witness for C14 at `a = (5, 2)`, `b = (1, 12)`: three passes. -/
theorem tnum_mul_iterations_witness :
    (tnum_mul_loop_counted ⟨5, 2⟩ ⟨1, 12⟩ (TNUM 0 0) 0).2 = 3 ∧
      (tnum_mul_loop_counted ⟨5, 2⟩ ⟨1, 12⟩ (TNUM 0 0) 0).2 ≤ 64 :=
  have h := tnum_mul_iterations ⟨5, 2⟩ ⟨1, 12⟩ (by decide) (by decide)
  ⟨h.2.1.trans size_seven, h.2.2⟩

/-- C15. Canonical representation: two well-formed tnums have the same 64-bit
members if and only if they have the same `value` and the same `mask`. -/
theorem tnum_canonical (a b : tnum) (ha : is_u64 a) (hb : is_u64 b) (wa : wf a) (wb : wf b) :
    (∀ v, v < 2 ^ 64 → (v &&& not_u64 a.mask = a.value ↔ v &&& not_u64 b.mask = b.value))
      ↔ (a.value = b.value ∧ a.mask = b.mask) := by
  constructor
  · intro h
    have e := eq_of_same_members ha hb wa wb h
    rw [e]
    exact ⟨rfl, rfl⟩
  · rintro ⟨hv, hm⟩ v _
    rw [hv, hm]

/-- Witness for C15 at `a = (4, 3)` and `b = (4, 1)`: the masks differ, so the
sets of members differ. -/
theorem tnum_canonical_witness :
    ¬ (∀ v, v < 2 ^ 64 →
        (v &&& not_u64 (⟨4, 3⟩ : tnum).mask = (⟨4, 3⟩ : tnum).value
          ↔ v &&& not_u64 (⟨4, 1⟩ : tnum).mask = (⟨4, 1⟩ : tnum).value)) :=
  fun h =>
    absurd ((tnum_canonical ⟨4, 3⟩ ⟨4, 1⟩ (by decide) (by decide) (by decide) (by decide)).1 h).2
      (by decide)

/-- C16. `tnum_unknown` is `(0, 2 ^ 64 - 1)`; it is well-formed, every 64-bit
value is a member of it, so it contains the set of every tnum, and it is the
only well-formed tnum of which every 64-bit value is a member. -/
theorem tnum_unknown_top :
    tnum_unknown = ⟨0, 2 ^ 64 - 1⟩ ∧ wf tnum_unknown ∧
    (∀ v, v < 2 ^ 64 → member v tnum_unknown) ∧
    (∀ a, is_u64 a → wf a → ∀ v, v < 2 ^ 64 → member v a → member v tnum_unknown) ∧
    (∀ t, is_u64 t → wf t → (∀ v, v < 2 ^ 64 → member v t) → t = tnum_unknown) := by
  refine ⟨rfl, by decide, fun v _ => member_unknown v, fun _ _ _ v _ _ => member_unknown v, ?_⟩
  intro t ht wt h
  exact eq_of_same_members ht (by decide) wt (by decide)
    (fun v hv => ⟨fun _ => member_unknown v, fun _ => h v hv⟩)

/-- Witness for C16: `2 ^ 63 + 5` is a member of `tnum_unknown`, and the
well-formed tnum `(0, 2 ^ 64 - 1)`, of which every 64-bit value is a member, is
`tnum_unknown`. -/
theorem tnum_unknown_top_witness :
    member (2 ^ 63 + 5) tnum_unknown ∧ (⟨0, 2 ^ 64 - 1⟩ : tnum) = tnum_unknown :=
  ⟨tnum_unknown_top.2.2.1 (2 ^ 63 + 5) (by decide),
    tnum_unknown_top.2.2.2.2 ⟨0, 2 ^ 64 - 1⟩ (by decide) (by decide)
      (fun v _ => member_unknown v)⟩

/-- C17. `tnum_const v` is `(v, 0)` for a 64-bit `v`; it is well-formed and its
64-bit members are exactly `v`. -/
theorem tnum_const_spec (v : Nat) (hv : v < 2 ^ 64) :
    tnum_const v = ⟨v, 0⟩ ∧ wf (tnum_const v) ∧
    ∀ x, x < 2 ^ 64 → (member x (tnum_const v) ↔ x = v) := by
  have hw : wf (tnum_const v) := Nat.and_zero v
  refine ⟨rfl, hw, ?_⟩
  intro x hx
  constructor
  · exact member_const_eq hx
  · intro h
    rw [h]
    exact member_value ⟨hv, Nat.two_pow_pos 64⟩ hw

/-- Witness for C17 at `v = 2 ^ 64 - 1`. -/
theorem tnum_const_spec_witness :
    tnum_const (2 ^ 64 - 1) = ⟨2 ^ 64 - 1, 0⟩ ∧
      (member (2 ^ 64 - 1) (tnum_const (2 ^ 64 - 1)) ↔ 2 ^ 64 - 1 = 2 ^ 64 - 1) ∧
      (member 6 (tnum_const (2 ^ 64 - 1)) ↔ 6 = 2 ^ 64 - 1) :=
  have h := tnum_const_spec (2 ^ 64 - 1) (by decide)
  ⟨h.1, h.2.2 (2 ^ 64 - 1) (by decide), h.2.2 6 (by decide)⟩

/-- C18. Precision of `tnum_range`, against its model from the spec: for
`min <= max` below `2 ^ 64`, the result is `tnum_const min` when `min == max`;
otherwise, with `b` the most significant set bit of `min ^ max`, its mask is
all the bits `0..b` and its value is `min` with those bits cleared. It is
well-formed, every number of `[min, max]` is a member of it, and it is the
tightest such tnum: every well-formed tnum covering `[min, max]` contains its
set. In particular `tnum_range 4 7 = (4, 3)` and `tnum_range 5 5 = (5, 0)`. -/
theorem tnum_range_spec (min max : Nat) (hle : min ≤ max) (hmax : max < 2 ^ 64) :
    (min = max → tnum_range min max = tnum_const min) ∧
    (min ≠ max → ∃ b, (min ^^^ max).testBit b = true ∧
      (∀ j, b < j → (min ^^^ max).testBit j = false) ∧
      (tnum_range min max).mask = 2 ^ (b + 1) - 1 ∧
      (tnum_range min max).value = min &&& not_u64 (2 ^ (b + 1) - 1)) ∧
    wf (tnum_range min max) ∧
    (∀ v, min ≤ v → v ≤ max → member v (tnum_range min max)) ∧
    (∀ t, is_u64 t → wf t → (∀ v, min ≤ v → v ≤ max → member v t) →
      ∀ z, z < 2 ^ 64 → member z (tnum_range min max) → member z t) ∧
    tnum_range 4 7 = ⟨4, 3⟩ ∧ tnum_range 5 5 = ⟨5, 0⟩ := by
  refine ⟨?_, ?_, tnum_range_wf max (lt_of_le_of_lt hle hmax),
    fun v h1 h2 => tnum_range_covers hle hmax h1 h2,
    fun t ht wt hc => tnum_range_tight hle hmax ht wt hc, tnum_range_eval_4_7,
    tnum_range_eval_5_5⟩
  · intro heq
    unfold tnum_range
    rw [if_pos heq]
  · intro hne
    have hlt : min < max := by omega
    obtain ⟨hmin, hmaxb, _⟩ := range_bits hlt
    have hb : (min ^^^ max).testBit (Nat.log2 (min ^^^ max)) = true := by
      rw [Nat.testBit_xor, hmin, hmaxb]
      rfl
    refine ⟨Nat.log2 (min ^^^ max), hb, fun j hj => testBit_above_log2 _ hj, ?_, ?_⟩
    · rw [tnum_range_of_lt hlt]
      rfl
    · rw [tnum_range_of_lt hlt]
      rfl

/-- Witness for C18 at `min = 4`, `max = 7`: the result is `(4, 3)`, `6` is a
member of it, and its member `5` is a member of the covering tnum `(0, 7)`. -/
theorem tnum_range_spec_witness :
    tnum_range 4 7 = ⟨4, 3⟩ ∧ member 6 (tnum_range 4 7) ∧ member 5 ⟨0, 7⟩ :=
  have h := tnum_range_spec 4 7 (by decide) (by decide)
  have h6 := h.2.2.2.1 6 (by decide) (by decide)
  have h5 := h.2.2.2.1 5 (by decide) (by decide)
  ⟨h.2.2.2.2.2.1, h6,
    h.2.2.2.2.1 ⟨0, 7⟩ (by decide) (by decide)
      (by
        intro v h1 h2
        interval_cases v <;> decide)
      5 (by decide) h5⟩

/-- C19. The membership query `tnum_in`: `tnum_in a a` holds for every
well-formed `a`, and `tnum_in (tnum_const v) a` holds for a 64-bit `v` if and
only if `v` is a member of `a`, that is `v & ~a.mask == a.value`. -/
theorem tnum_in_spec (a : tnum) (ha : is_u64 a) (wa : wf a) :
    tnum_in a a = true ∧
    ∀ v, v < 2 ^ 64 → (tnum_in (tnum_const v) a = true ↔ v &&& not_u64 a.mask = a.value) := by
  have hv : a.value &&& not_u64 a.mask = a.value := member_value ha wa
  constructor
  · unfold tnum_in
    rw [Bool.and_eq_true, beq_iff_eq, beq_iff_eq]
    exact ⟨rfl, and_not_u64_self ha.2⟩
  · intro v _
    simp only [tnum_in, tnum_const, TNUM, Bool.and_eq_true, beq_iff_eq, hv, Nat.zero_and,
      and_true]

/-- Witness for C19 at `a = (4, 3)` with `v = 6`, a member, and `v = 8`, not
a member. -/
theorem tnum_in_spec_witness :
    tnum_in ⟨4, 3⟩ ⟨4, 3⟩ = true ∧
      (tnum_in (tnum_const 6) ⟨4, 3⟩ = true ↔ 6 &&& not_u64 (⟨4, 3⟩ : tnum).mask = 4) ∧
      (tnum_in (tnum_const 8) ⟨4, 3⟩ = true ↔ 8 &&& not_u64 (⟨4, 3⟩ : tnum).mask = 4) :=
  have h := tnum_in_spec ⟨4, 3⟩ (by decide) (by decide)
  ⟨h.1, h.2 6 (by decide), h.2 8 (by decide)⟩

/-- C20. Value/mask decomposition in `tnum_mul`: `acc_m` starts with value `0`,
every pass of the loop keeps the value of `acc_m` at `0`, so the final `acc_m`
has value `0`, and the value of the result is the wrapped product
`a.value * b.value` with the bits of the result mask cleared. -/
theorem tnum_mul_value_mask (a b : tnum) :
    (TNUM 0 0).value = 0 ∧
    (∀ a1 b1 acc : tnum, acc.value = 0 → (tnum_mul_step a1 b1 acc).value = 0) ∧
    (tnum_mul_loop a b (TNUM 0 0)).value = 0 ∧
    (tnum_mul a b).value = mul_u64 a.value b.value &&& not_u64 (tnum_mul a b).mask :=
  ⟨rfl, fun a1 b1 _ h => tnum_mul_step_value_zero a1 b1 h,
    tnum_mul_loop_value_zero a b _ rfl,
    tnum_add_const_value (mul_u64_lt _ _) (tnum_mul_loop_value_zero a b _ rfl)⟩

/-- Witness for C20 at `a = (5, 2)`, `b = (1, 12)`: a pass from an `acc_m` with
value `0` gives value `0`, and the value of the product is `5 * 1` outside the
result mask. -/
theorem tnum_mul_value_mask_witness :
    (tnum_mul_step ⟨5, 2⟩ ⟨1, 12⟩ ⟨0, 6⟩).value = 0 ∧
      (tnum_mul ⟨5, 2⟩ ⟨1, 12⟩).value
        = mul_u64 5 1 &&& not_u64 (tnum_mul ⟨5, 2⟩ ⟨1, 12⟩).mask :=
  have h := tnum_mul_value_mask ⟨5, 2⟩ ⟨1, 12⟩
  ⟨h.2.1 ⟨5, 2⟩ ⟨1, 12⟩ ⟨0, 6⟩ rfl, h.2.2.2⟩

/-! ## Exactness on constants, and optimality of `tnum_sub` and `tnum_and` -/

theorem tnum_add_of_const (x y : Nat) :
    tnum_add (tnum_const x) (tnum_const y) = tnum_const (add_u64 x y) := by
  have h : add_u64 x y < 2 ^ 64 := add_u64_lt x y
  simp only [tnum_add, tnum_const, TNUM, Nat.add_zero, Nat.or_zero, not_u64, Nat.zero_xor]
  have e : add_u64 (add_u64 0 0) (add_u64 x y) = add_u64 x y := by
    unfold add_u64
    simp only [Nat.add_zero, Nat.zero_mod, Nat.zero_add, Nat.mod_mod]
  rw [e, Nat.xor_self, Nat.zero_xor, Nat.and_pow_two_sub_one_of_lt_two_pow h]

theorem tnum_sub_of_const (x y : Nat) :
    tnum_sub (tnum_const x) (tnum_const y) = tnum_const (sub_u64 x y) := by
  have h : sub_u64 x y < 2 ^ 64 := sub_u64_lt x y
  have e1 : add_u64 (sub_u64 x y) 0 = sub_u64 x y := by
    unfold add_u64
    rw [Nat.add_zero, Nat.mod_eq_of_lt h]
  have e0 : ∀ d, d < 2 ^ 64 → sub_u64 d 0 = d := by
    intro d hd
    unfold sub_u64
    rw [Nat.sub_zero, Nat.add_mod_right, Nat.mod_eq_of_lt hd]
  have e2 : sub_u64 (sub_u64 x y) 0 = sub_u64 x y := e0 _ h
  simp only [tnum_sub, tnum_const, TNUM, e1, e2, Nat.xor_self, Nat.or_zero, not_u64,
    Nat.zero_xor, Nat.and_pow_two_sub_one_of_lt_two_pow h]

theorem tnum_and_of_const {x y : Nat} (hx : x < 2 ^ 64) :
    tnum_and (tnum_const x) (tnum_const y) = tnum_const (x &&& y) := by
  have h : x &&& y < 2 ^ 64 := lt_of_le_of_lt Nat.and_le_left hx
  simp only [tnum_and, tnum_const, TNUM, Nat.or_zero, and_not_u64_self h]

/-! ### Optimality of `tnum_sub` -/

/-- Flipping bit `j` of the minuend, below which nothing changes, flips bit `j`
of the difference. -/
theorem sub_flip_left {x x2 y j : Nat} (hx : x < 2 ^ 64) (hx2 : x2 < 2 ^ 64) (hy : y < 2 ^ 64)
    (hj : j < 64) (hm : x2 % 2 ^ j = x % 2 ^ j) (hb : x2.testBit j = !x.testBit j) :
    (sub_u64 x2 y).testBit j = !(sub_u64 x y).testBit j := by
  rw [testBit_sub_u64 hx2 hy hj, testBit_sub_u64 hx hy hj, hm, hb]
  cases x.testBit j <;> cases y.testBit j <;>
    cases decide (x % 2 ^ j < y % 2 ^ j) <;> rfl

/-- Flipping bit `j` of the subtrahend, below which nothing changes, flips bit
`j` of the difference. -/
theorem sub_flip_right {x y y2 j : Nat} (hx : x < 2 ^ 64) (hy : y < 2 ^ 64) (hy2 : y2 < 2 ^ 64)
    (hj : j < 64) (hm : y2 % 2 ^ j = y % 2 ^ j) (hb : y2.testBit j = !y.testBit j) :
    (sub_u64 x y2).testBit j = !(sub_u64 x y).testBit j := by
  rw [testBit_sub_u64 hx hy2 hj, testBit_sub_u64 hx hy hj, hm, hb]
  cases x.testBit j <;> cases y.testBit j <;>
    cases decide (x % 2 ^ j < y % 2 ^ j) <;> rfl

theorem optimal_tnum_sub (a b t : tnum)
    (ha : is_u64 a) (hb : is_u64 b) (ht : is_u64 t) (wa : wf a) (wb : wf b) (wt : wf t)
    (hcover : ∀ x y, x < 2 ^ 64 → y < 2 ^ 64 → member x a → member y b →
      member (sub_u64 x y) t) :
    ∀ z, z < 2 ^ 64 → member z (tnum_sub a b) → member z t := by
  intro z hz mz
  have bz := (member_iff_bits hz (tnum_sub_value_lt a b)).1 mz
  rw [member_iff_bits hz ht.1]
  intro j
  by_cases hj : j < 64
  · cases htm : t.mask.testBit j
    · -- bit `j` is known in `t`
      have cov : ∀ x y, x < 2 ^ 64 → y < 2 ^ 64 → member x a → member y b →
          t.value.testBit j = (sub_u64 x y).testBit j := fun x y hx hy mx my =>
        cover_bit ht (sub_u64_lt x y) (hcover x y hx hy mx my) htm
      have c0 := cov _ _ ha.1 hb.1 (member_value ha wa) (member_value hb wb)
      have hr : (tnum_sub a b).mask.testBit j = false := by
        rw [tnum_sub_mask_bit hb wa wb]
        have c1 := cov _ _ (or_mask_lt ha) hb.1 (member_value_or_mask ha wa)
          (member_value hb wb)
        have c2 := cov _ _ ha.1 (or_mask_lt hb) (member_value ha wa)
          (member_value_or_mask hb wb)
        rw [← c1, ← c2]
        simp only [bne_self_eq_false, Bool.false_or, Bool.or_eq_false_iff]
        constructor
        · cases ham : a.mask.testBit j
          · rfl
          · exfalso
            have hav : a.value.testBit j = false := by
              have := wf_bits wa j
              rw [ham] at this
              simpa using this
            have hx2 := Nat.or_lt_two_pow ha.1 (Nat.pow_lt_pow_right (by decide) hj)
            have c3 := cov _ _ hx2 hb.1 (member_value_or_bit ha wa hj ham) (member_value hb wb)
            rw [sub_flip_left ha.1 hx2 hb.1 hj (or_bit_mod _ _)
              (by rw [or_bit_testBit, hav]; rfl), ← c0] at c3
            revert c3
            cases t.value.testBit j <;> simp
        · cases hbm : b.mask.testBit j
          · rfl
          · exfalso
            have hbv : b.value.testBit j = false := by
              have := wf_bits wb j
              rw [hbm] at this
              simpa using this
            have hy2 := Nat.or_lt_two_pow hb.1 (Nat.pow_lt_pow_right (by decide) hj)
            have c3 := cov _ _ ha.1 hy2 (member_value ha wa) (member_value_or_bit hb wb hj hbm)
            rw [sub_flip_right ha.1 hb.1 hy2 hj (or_bit_mod _ _)
              (by rw [or_bit_testBit, hbv]; rfl), ← c0] at c3
            revert c3
            cases t.value.testBit j <;> simp
      have hzj := bz j
      rw [hr, tnum_sub_value_bit a b hj, hr, ← c0] at hzj
      simpa using hzj
    · have hw := wf_bits wt j
      rw [htm] at hw
      have : t.value.testBit j = false := by simpa using hw
      rw [this]
      simp
  · rw [testBit_of_ge_64 ht.1 (by omega), testBit_of_ge_64 hz (by omega)]
    rfl

/-! ### Optimality of `tnum_and` -/

theorem tnum_and_is_u64 {a : tnum} (b : tnum) (ha : is_u64 a) : is_u64 (tnum_and a b) := by
  refine ⟨tnum_and_value_lt b ha, ?_⟩
  simp only [tnum_and, TNUM]
  exact lt_of_le_of_lt (le_trans Nat.and_le_left Nat.and_le_left) (or_mask_lt ha)

/-- Bit `j` of the mask computed by `tnum_and`: both operands may have the bit
set, and not both certainly have it. -/
theorem tnum_and_mask_bit {a : tnum} (b : tnum) (ha : is_u64 a) (j : Nat) :
    (tnum_and a b).mask.testBit j
      = ((a.value.testBit j || a.mask.testBit j) && (b.value.testBit j || b.mask.testBit j)
          && !(a.value.testBit j && b.value.testBit j)) := by
  simp only [tnum_and, TNUM, Nat.testBit_and, Nat.testBit_or, testBit_not_u64]
  by_cases hj : j < 64
  · simp only [hj, decide_True, Bool.xor_true]
  · rw [testBit_of_ge_64 ha.1 (by omega), testBit_of_ge_64 ha.2 (by omega)]
    simp

/-- A bit of the mask of `tnum_and a b` is set exactly when two concrete
conjunctions differ there. -/
theorem tnum_and_mask_iff {a b : tnum} (ha : is_u64 a) (hb : is_u64 b) (wa : wf a) (wb : wf b)
    (j : Nat) :
    (tnum_and a b).mask.testBit j = true ↔
      ∃ x x2 y y2, x < 2 ^ 64 ∧ x2 < 2 ^ 64 ∧ y < 2 ^ 64 ∧ y2 < 2 ^ 64 ∧
        member x a ∧ member x2 a ∧ member y b ∧ member y2 b ∧
        (x &&& y).testBit j ≠ (x2 &&& y2).testBit j := by
  constructor
  · intro h
    rw [tnum_and_mask_bit b ha] at h
    refine ⟨a.value ||| a.mask, a.value, b.value ||| b.mask, b.value, or_mask_lt ha, ha.1,
      or_mask_lt hb, hb.1, member_value_or_mask ha wa, member_value ha wa,
      member_value_or_mask hb wb, member_value hb wb, ?_⟩
    rw [Nat.testBit_and, Nat.testBit_and, Nat.testBit_or, Nat.testBit_or]
    revert h
    cases a.value.testBit j <;> cases a.mask.testBit j <;> cases b.value.testBit j <;>
      cases b.mask.testBit j <;> simp
  · rintro ⟨x, x2, y, y2, hx, hx2, hy, hy2, mx, mx2, my, my2, hne⟩
    cases hm : (tnum_and a b).mask.testBit j
    · exfalso
      have c1 := cover_bit (tnum_and_is_u64 b ha) (lt_of_le_of_lt Nat.and_le_left hx)
        (sound_tnum_and a b x y ha hb hx hy mx my) hm
      have c2 := cover_bit (tnum_and_is_u64 b ha) (lt_of_le_of_lt Nat.and_le_left hx2)
        (sound_tnum_and a b x2 y2 ha hb hx2 hy2 mx2 my2) hm
      exact hne (c1.symm.trans c2)
    · rfl

theorem optimal_tnum_and (a b t : tnum)
    (ha : is_u64 a) (hb : is_u64 b) (ht : is_u64 t) (wa : wf a) (wb : wf b) (wt : wf t)
    (hcover : ∀ x y, x < 2 ^ 64 → y < 2 ^ 64 → member x a → member y b →
      member (x &&& y) t) :
    ∀ z, z < 2 ^ 64 → member z (tnum_and a b) → member z t := by
  intro z hz mz
  have bz := (member_iff_bits hz (tnum_and_value_lt b ha)).1 mz
  rw [member_iff_bits hz ht.1]
  intro j
  cases htm : t.mask.testBit j
  · have cov : ∀ x y, x < 2 ^ 64 → y < 2 ^ 64 → member x a → member y b →
        t.value.testBit j = (x &&& y).testBit j := fun x y hx hy mx my =>
      cover_bit ht (lt_of_le_of_lt Nat.and_le_left hx) (hcover x y hx hy mx my) htm
    have hr : (tnum_and a b).mask.testBit j = false := by
      cases hm : (tnum_and a b).mask.testBit j
      · rfl
      · exfalso
        obtain ⟨x, x2, y, y2, hx, hx2, hy, hy2, mx, mx2, my, my2, hne⟩ :=
          (tnum_and_mask_iff ha hb wa wb j).1 hm
        exact hne ((cov x y hx hy mx my).symm.trans (cov x2 y2 hx2 hy2 mx2 my2))
    have c0 := cov _ _ ha.1 hb.1 (member_value ha wa) (member_value hb wb)
    have hzj := bz j
    rw [hr] at hzj
    have hv : (tnum_and a b).value = a.value &&& b.value := rfl
    rw [hv, ← c0] at hzj
    simpa using hzj
  · have hw := wf_bits wt j
    rw [htm] at hw
    have : t.value.testBit j = false := by simpa using hw
    rw [this]
    simp

/-! ## The claims, concluded -/

/-- C21. Exactness on constants: for 64-bit `x`, `y`, each of `tnum_mul`,
`tnum_add`, `tnum_sub` and `tnum_and` applied to `tnum_const x` and
`tnum_const y` returns the constant of the wrapped concrete result, so its mask
is `0`: no unknown bit is introduced. -/
theorem tnum_exact_on_constants (x y : Nat) (hx : x < 2 ^ 64) (_hy : y < 2 ^ 64) :
    tnum_mul (tnum_const x) (tnum_const y) = tnum_const (mul_u64 x y) ∧
    tnum_add (tnum_const x) (tnum_const y) = tnum_const (add_u64 x y) ∧
    tnum_sub (tnum_const x) (tnum_const y) = tnum_const (sub_u64 x y) ∧
    tnum_and (tnum_const x) (tnum_const y) = tnum_const (x &&& y) ∧
    (tnum_mul (tnum_const x) (tnum_const y)).mask = 0 ∧
    (tnum_add (tnum_const x) (tnum_const y)).mask = 0 ∧
    (tnum_sub (tnum_const x) (tnum_const y)).mask = 0 ∧
    (tnum_and (tnum_const x) (tnum_const y)).mask = 0 := by
  have h1 : tnum_mul (tnum_const x) (tnum_const y) = tnum_const (mul_u64 x y) :=
    tnum_mul_of_const (tnum_const x) (tnum_const y) rfl rfl
  have h2 := tnum_add_of_const x y
  have h3 := tnum_sub_of_const x y
  have h4 := tnum_and_of_const (y := y) hx
  refine ⟨h1, h2, h3, h4, ?_, ?_, ?_, ?_⟩
  · rw [h1]
    rfl
  · rw [h2]
    rfl
  · rw [h3]
    rfl
  · rw [h4]
    rfl

/-- Witness for C21 at `x = 3`, `y = 2 ^ 64 - 1`, where product, sum and
difference all wrap. -/
theorem tnum_exact_on_constants_witness :
    tnum_mul (tnum_const 3) (tnum_const (2 ^ 64 - 1)) = ⟨2 ^ 64 - 3, 0⟩ ∧
    tnum_add (tnum_const 3) (tnum_const (2 ^ 64 - 1)) = ⟨2, 0⟩ ∧
    tnum_sub (tnum_const 3) (tnum_const (2 ^ 64 - 1)) = ⟨4, 0⟩ ∧
    tnum_and (tnum_const 3) (tnum_const (2 ^ 64 - 1)) = ⟨3, 0⟩ :=
  have h := tnum_exact_on_constants 3 (2 ^ 64 - 1) (by decide) (by decide)
  ⟨h.1.trans (by decide), h.2.1.trans (by decide), h.2.2.1.trans (by decide),
    h.2.2.2.1.trans (by decide)⟩

/-- C22. Optimality of `tnum_sub`: for well-formed `a`, `b`, every well-formed
tnum `t` whose set contains all wrapped differences `x - y` of members of `a`
and `b` contains the whole set of `tnum_sub a b`. -/
theorem tnum_sub_optimal (a b t : tnum)
    (ha : is_u64 a) (hb : is_u64 b) (ht : is_u64 t) (wa : wf a) (wb : wf b) (wt : wf t)
    (hcover : ∀ x y, x < 2 ^ 64 → y < 2 ^ 64 → member x a → member y b →
      member (sub_u64 x y) t) :
    ∀ z, z < 2 ^ 64 → member z (tnum_sub a b) → member z t :=
  optimal_tnum_sub a b t ha hb ht wa wb wt hcover

/-- Witness for C22 at `a = (2, 1)`, `b = (4, 0)`, whose differences wrap, and
the covering `t = (2 ^ 64 - 8, 7)`. -/
theorem tnum_sub_optimal_witness :
    member (2 ^ 64 - 1) (tnum_sub ⟨2, 1⟩ ⟨4, 0⟩) ∧ member (2 ^ 64 - 1) ⟨2 ^ 64 - 8, 7⟩ :=
  ⟨by decide,
    tnum_sub_optimal ⟨2, 1⟩ ⟨4, 0⟩ ⟨2 ^ 64 - 8, 7⟩ (by decide) (by decide) (by decide)
      (by decide) (by decide) (by decide)
      (by
        intro x y hx hy mx my
        rw [member_const_eq hy my]
        rcases member_one_bit hx (by decide) (by decide : 0 < 64) mx with h | h
        · rw [h]
          decide
        · rw [h]
          decide)
      (2 ^ 64 - 1) (by decide) (by decide)⟩

/-- C23. Optimality of `tnum_and`: for well-formed `a`, `b`, a bit is set in the
mask of `tnum_and a b` if and only if two concrete conjunctions `x & y` and
`x2 & y2` of members differ at that bit; hence every well-formed tnum `t`
whose set contains every `x & y` contains the whole set of `tnum_and a b`. -/
theorem tnum_and_optimal (a b t : tnum)
    (ha : is_u64 a) (hb : is_u64 b) (ht : is_u64 t) (wa : wf a) (wb : wf b) (wt : wf t) :
    (∀ j, (tnum_and a b).mask.testBit j = true ↔
      ∃ x x2 y y2, x < 2 ^ 64 ∧ x2 < 2 ^ 64 ∧ y < 2 ^ 64 ∧ y2 < 2 ^ 64 ∧
        member x a ∧ member x2 a ∧ member y b ∧ member y2 b ∧
        (x &&& y).testBit j ≠ (x2 &&& y2).testBit j) ∧
    ((∀ x y, x < 2 ^ 64 → y < 2 ^ 64 → member x a → member y b → member (x &&& y) t) →
      ∀ z, z < 2 ^ 64 → member z (tnum_and a b) → member z t) :=
  ⟨tnum_and_mask_iff ha hb wa wb, optimal_tnum_and a b t ha hb ht wa wb wt⟩

/-- Witness for C23 at `a = (2, 1)`, `b = (1, 2)` and the covering
`t = (0, 7)`: `2 & 1` and `3 & 1` differ at bit `0`, so that bit is in the
mask, and the member `3` of the result is a member of `t`. -/
theorem tnum_and_optimal_witness :
    (tnum_and ⟨2, 1⟩ ⟨1, 2⟩).mask.testBit 0 = true ∧ member 3 ⟨0, 7⟩ :=
  have h := tnum_and_optimal ⟨2, 1⟩ ⟨1, 2⟩ ⟨0, 7⟩ (by decide) (by decide) (by decide)
    (by decide) (by decide) (by decide)
  ⟨(h.1 0).2 ⟨2, 3, 1, 1, by decide, by decide, by decide, by decide, by decide, by decide,
      by decide, by decide, by decide⟩,
    h.2
      (by
        intro x y hx hy mx my
        rcases member_one_bit hx (by decide) (by decide : 0 < 64) mx with h1 | h1 <;>
          rcases member_one_bit hy (by decide) (by decide : 1 < 64) my with h2 | h2 <;>
          rw [h1, h2] <;> decide)
      3 (by decide) (by decide)⟩
end Tnum
